import Mathlib

set_option maxHeartbeats 1000000

/-!
Verification development for the layered-DAG layout engine
(`computeLayout` / `baryPos` in the graph-viewer source).

Modelling conventions:
* JS numbers are modelled as exact rationals `ℚ` (all quantities the claims
  concern are produced by `+`, `max`, `min` and division of small integers).
* A JS `Map` (insertion-ordered, unique keys) is modelled as an association
  list `SMap β` with JS semantics: `set` on a present key updates in place,
  on an absent key appends; iteration follows the list order.
* `Array.prototype.sort` (stable since ES2019) with the comparator
  `baryPos(a) - baryPos(b)` is modelled as `List.insertionSort` on the key
  `baryKey : String → WithTop ℚ` (`⊤` models `Infinity`; the comparator value
  `Infinity - Infinity = NaN` is coerced to `+0` by the ECMAScript SortCompare
  step, i.e. two `⊤` keys compare equal, exactly as `⊤ ≤ ⊤`).
* The JS `while (head < queue.length)` loop of Kahn's algorithm is modelled
  with explicit fuel `seeds.length + Σ max(inDeg,0) + 1`; every iteration
  removes one pending element and enqueues only by decrementing a positive
  in-degree to zero, so this fuel is never exhausted (the measure strictly
  decreases), matching the always-terminating JS loop.
-/

/-! ### JS `Map` model -/

abbrev SMap (β : Type) : Type := List (String × β)

def mapGet? {β : Type} : SMap β → String → Option β
  | [], _ => none
  | (k', v) :: rest, k => if k' = k then some v else mapGet? rest k

def mapGetD {β : Type} (m : SMap β) (k : String) (d : β) : β :=
  (mapGet? m k).getD d

def mapHas {β : Type} (m : SMap β) (k : String) : Bool :=
  (mapGet? m k).isSome

def mapSet {β : Type} : SMap β → String → β → SMap β
  | [], k, v => [(k, v)]
  | (k', v') :: rest, k, v =>
    if k' = k then (k', v) :: rest else (k', v') :: mapSet rest k v

def mapUpdate {β : Type} : SMap β → String → (β → β) → SMap β
  | [], _, _ => []
  | (k', v) :: rest, k, f =>
    if k' = k then (k', f v) :: rest else (k', v) :: mapUpdate rest k f

/-- `new Map(pairs)`: repeated `set` over the pair list. -/
def mapOfList {β : Type} (ps : List (String × β)) : SMap β :=
  ps.foldl (fun m p => mapSet m p.1 p.2) []

/-! ### Data model and layout configuration constants -/

structure Node where
  id : String
  type : String
deriving DecidableEq

structure Edge where
  source : String
  target : String
deriving DecidableEq

structure Graph where
  nodes : List Node
  edges : List Edge
deriving DecidableEq

/-- `const NODE_W = 250` -/
def NODE_W : ℚ := 250

/-- `const H_STEP = 330` (column step) -/
def H_STEP : ℚ := 330

/-- `const V_STEP = 220` (vertical step) -/
def V_STEP : ℚ := 220

/-- `const PAD = 60` (canvas padding) -/
def PAD : ℚ := 60

/-- `getNodeHeight`: the `NODE_HEIGHTS` table with `?? 124` fallback;
the argument is `node?.type`, possibly `undefined`. -/
def getNodeHeight : Option String → ℚ
  | some "incast" => 200
  | some "outcast" => 200
  | some "op" => 148
  | some "tensor" => 200
  | _ => 124

structure NodePos where
  x : ℚ
  y : ℚ
  w : ℚ
  h : ℚ
deriving DecidableEq

structure LayoutResult where
  positions : SMap NodePos
  layerNodes : List (List String)
  maxLayer : Nat
  canvasW : Option ℚ
  canvasH : Option ℚ
deriving DecidableEq

/-! ### Adjacency construction (`pred` / `succ` maps) -/

def predInit (nodes : List Node) : SMap (List String) :=
  mapOfList (nodes.map (fun n => (n.id, [])))

/-- One step of the edge loop: an edge is recorded only when both endpoints
are keys of the maps (`pred.has(e.target) && succ.has(e.source)`);
otherwise it is silently dropped. -/
def adjStep (ps : SMap (List String) × SMap (List String)) (e : Edge) :
    SMap (List String) × SMap (List String) :=
  if mapHas ps.1 e.target && mapHas ps.2 e.source then
    (mapUpdate ps.1 e.target (fun l => l ++ [e.source]),
     mapUpdate ps.2 e.source (fun l => l ++ [e.target]))
  else ps

def buildAdj (nodes : List Node) (edges : List Edge) :
    SMap (List String) × SMap (List String) :=
  edges.foldl adjStep (predInit nodes, predInit nodes)

def predOf (g : Graph) : SMap (List String) := (buildAdj g.nodes g.edges).1

def succOf (g : Graph) : SMap (List String) := (buildAdj g.nodes g.edges).2

/-! ### Layer assignment: Kahn's BFS with longest-path update -/

def inDegInit (nodes : List Node) (pr : SMap (List String)) : SMap Int :=
  mapOfList (nodes.map (fun n => (n.id, ((mapGetD pr n.id []).length : Int))))

def seedsOf (nodes : List Node) (inDeg : SMap Int) : List String :=
  (nodes.filter (fun n => mapGetD inDeg n.id 0 = 0)).map (fun n => n.id)

/-- `if (!layer.has(nextId) || layer.get(nextId) < proposed)
layer.set(nextId, proposed)` -/
def proposeLayer (layer : SMap Nat) (v : String) (proposed : Nat) : SMap Nat :=
  match mapGet? layer v with
  | none => mapSet layer v proposed
  | some lv => if lv < proposed then mapSet layer v proposed else layer

/-- Inner `for (const nextId of succ.get(id))` loop: propose
`currentLayer + 1`, take it when larger than the recorded layer (or none is
recorded), decrement the in-degree, enqueue on reaching zero. -/
def kahnStep (proposed : Nat) :
    List String → SMap Nat → SMap Int → List String →
    SMap Nat × SMap Int × List String
  | [], layer, inDeg, enq => (layer, inDeg, enq)
  | v :: rest, layer, inDeg, enq =>
    kahnStep proposed rest (proposeLayer layer v proposed)
      (mapSet inDeg v (mapGetD inDeg v 0 - 1))
      (if mapGetD inDeg v 0 - 1 = 0 then enq ++ [v] else enq)

/-- The `while (head < queue.length)` loop; the first list argument is the
unprocessed part `queue[head..]` of the queue.  Every enqueued id already
carries a layer, so `mapGetD layer nid 0` reads `layer.get(id)` faithfully. -/
def kahnLoop (su : SMap (List String)) :
    Nat → List String → SMap Nat → SMap Int → SMap Nat × SMap Int
  | 0, _, layer, inDeg => (layer, inDeg)
  | _ + 1, [], layer, inDeg => (layer, inDeg)
  | fuel + 1, nid :: rest, layer, inDeg =>
    let cur := mapGetD layer nid 0
    let s := kahnStep (cur + 1) (mapGetD su nid []) layer inDeg []
    kahnLoop su fuel (rest ++ s.2.2) s.1 s.2.1

def intSumNat (m : SMap Int) : Nat :=
  (m.map (fun p => p.2.toNat)).sum

def kahnFuel (seeds : List String) (inDeg : SMap Int) : Nat :=
  seeds.length + intSumNat inDeg + 1

/-- The whole layering loop of `computeLayout` (before the fallback pass),
returning the final `layer` and `inDeg` maps. -/
def kahnOf (g : Graph) : SMap Nat × SMap Int :=
  let pr := predOf g
  let su := succOf g
  let inDeg := inDegInit g.nodes pr
  let seeds := seedsOf g.nodes inDeg
  let layer0 := mapOfList (seeds.map (fun nid => (nid, 0)))
  kahnLoop su (kahnFuel seeds inDeg) seeds layer0 inDeg

/-- `for (const n of nodes) if (!layer.has(n.id)) layer.set(n.id, 0)` -/
def withFallback (L : SMap Nat) (nodes : List Node) : SMap Nat :=
  nodes.foldl (fun m n => if mapHas m n.id then m else mapSet m n.id 0) L

def layerMapOf (g : Graph) : SMap Nat := withFallback (kahnOf g).1 g.nodes

/-- `Math.max(...layer.values())`; the layer map is non-empty whenever the
node list is (values are naturals, so base `0` is faithful). -/
def natMaxList (l : List Nat) : Nat := l.foldr max 0

def maxLayerOf (g : Graph) : Nat :=
  natMaxList ((layerMapOf g).map (fun p => p.2))

/-- `layer.forEach((l, id) => layerNodes[l].push(id))` over buckets
`0 .. maxLayer` (every recorded layer is `≤ maxLayer`, so `List.set` never
drops an entry). -/
def groupLayers (L : SMap Nat) (maxLayer : Nat) : List (List String) :=
  L.foldl (fun buckets p => buckets.set p.2 (buckets.getD p.2 [] ++ [p.1]))
    (List.replicate (maxLayer + 1) [])

/-! ### Crossing minimization: three stable barycenter sweeps -/

/-- `baryPos(nodeId, neighbors, prevPositions)`: average position of the
neighbors present in the adjacent layer, `Infinity` (`⊤`) when there are no
neighbors or none of them is present. -/
def baryKey (adj : SMap (List String)) (pm : SMap ℚ) (nid : String) : WithTop ℚ :=
  let nbrs := mapGetD adj nid []
  if nbrs = [] then ⊤
  else
    let present := nbrs.filter (fun p => mapHas pm p)
    if present = [] then ⊤
    else (((present.map (fun p => mapGetD pm p 0)).sum / (present.length : ℚ) : ℚ) : WithTop ℚ)

instance baryDecRel (adj : SMap (List String)) (pm : SMap ℚ) :
    DecidableRel (fun a b => baryKey adj pm a ≤ baryKey adj pm b) :=
  fun a b => inferInstanceAs (Decidable (baryKey adj pm a ≤ baryKey adj pm b))

/-- `new Map(ids.map((id, i) => [id, i]))` -/
def indexMapOf (ids : List String) : SMap ℚ :=
  mapOfList (ids.enum.map (fun p => (p.2, (p.1 : ℚ))))

/-- One `layerNodes[dst].sort(...)` call: ES2019 stable sort under the
barycenter comparator. -/
def sortLayer (adj : SMap (List String)) (pm : SMap ℚ) (ids : List String) :
    List String :=
  List.insertionSort (fun a b => baryKey adj pm a ≤ baryKey adj pm b) ids

def sweepAt (adj : SMap (List String)) (src dst : Nat)
    (ln : List (List String)) : List (List String) :=
  ln.set dst (sortLayer adj (indexMapOf (ln.getD src [])) (ln.getD dst []))

/-- Forward sweep `l = 1..maxLayer`, backward sweep `l = maxLayer-1..0`,
forward sweep again. -/
def crossingMin (pr su : SMap (List String)) (maxLayer : Nat)
    (ln : List (List String)) : List (List String) :=
  let ln1 := (List.range' 1 maxLayer).foldl (fun acc l => sweepAt pr (l - 1) l acc) ln
  let ln2 := ((List.range maxLayer).reverse).foldl
    (fun acc l => sweepAt su (l + 1) l acc) ln1
  (List.range' 1 maxLayer).foldl (fun acc l => sweepAt pr (l - 1) l acc) ln2

def lnOf (g : Graph) : List (List String) :=
  crossingMin (predOf g) (succOf g) (maxLayerOf g)
    (groupLayers (layerMapOf g) (maxLayerOf g))

/-! ### Y assignment: top-down pass and bottom-up refinement -/

/-- The y chosen for one node of the top-down pass:
`max(cursor, mean of already-placed predecessors)`, or the bare cursor when
no predecessor is placed. -/
def placeY (pr : SMap (List String)) (nodeY : SMap ℚ) (nid : String)
    (cursor : ℚ) : ℚ :=
  let pp := (mapGetD pr nid []).filter (fun p => mapHas nodeY p)
  if pp = [] then cursor
  else max cursor ((pp.map (fun p => mapGetD nodeY p 0)).sum / (pp.length : ℚ))

/-- Inner loop of the top-down pass over one layer's ids, threading the
cursor: place the node at `placeY`, then `cursor = y + V_STEP`. -/
def placeLayer (pr : SMap (List String)) :
    List String → ℚ → SMap ℚ → SMap ℚ
  | [], _, nodeY => nodeY
  | nid :: rest, cursor, nodeY =>
    placeLayer pr rest (placeY pr nodeY nid cursor + V_STEP)
      (mapSet nodeY nid (placeY pr nodeY nid cursor))

def assignY (pr : SMap (List String)) (ln : List (List String)) : SMap ℚ :=
  ln.foldl (fun nodeY ids => placeLayer pr ids PAD nodeY) []

/-- One node of the bottom-up pass.  The `maxY > nodeY.get(id)` branch of
the source is empty; the other branch sets
`max(nodeY.get(id), maxY < PAD ? PAD : maxY)`. -/
def refineY (su : SMap (List String)) (nodeY : SMap ℚ) (nid : String)
    (ceiling : Option ℚ) : SMap ℚ :=
  let ss := (mapGetD su nid []).filter (fun p => mapHas nodeY p)
  if ss = [] then nodeY
  else
    let ideal := (ss.map (fun p => mapGetD nodeY p 0)).sum / (ss.length : ℚ)
    let maxY :=
      match ceiling with
      | none => ideal
      | some c => min ideal (c - V_STEP)
    if mapGetD nodeY nid 0 < maxY then nodeY
    else
      mapSet nodeY nid
        (max (mapGetD nodeY nid 0) (if maxY < PAD then PAD else maxY))

/-- Inner loop of the bottom-up pass over one layer's ids in reverse order,
threading the ceiling (`ceiling = nodeY.get(id)` after the update). -/
def refineLayer (su : SMap (List String)) :
    List String → Option ℚ → SMap ℚ → SMap ℚ
  | [], _, nodeY => nodeY
  | nid :: rest, ceiling, nodeY =>
    refineLayer su rest (some (mapGetD (refineY su nodeY nid ceiling) nid 0))
      (refineY su nodeY nid ceiling)

def refineAll (su : SMap (List String)) (maxLayer : Nat)
    (ln : List (List String)) (nodeY : SMap ℚ) : SMap ℚ :=
  ((List.range maxLayer).reverse).foldl
    (fun y l => refineLayer su ((ln.getD l []).reverse) none y) nodeY

def yAOf (g : Graph) : SMap ℚ := assignY (predOf g) (lnOf g)

def yBOf (g : Graph) : SMap ℚ :=
  refineAll (succOf g) (maxLayerOf g) (lnOf g) (yAOf g)

/-! ### Final positions and canvas size -/

def layerXOf (ln : List (List String)) : List ℚ :=
  ln.enum.map (fun p => PAD + (p.1 : ℚ) * H_STEP)

def buildPositions (nodeMap : SMap Node) (ln : List (List String))
    (layerX : List ℚ) (nodeY : SMap ℚ) : SMap NodePos :=
  ln.enum.foldl
    (fun acc q =>
      q.2.foldl
        (fun acc nid =>
          mapSet acc nid
            { x := layerX.getD q.1 0
              y := mapGetD nodeY nid PAD
              w := NODE_W
              h := getNodeHeight ((mapGet? nodeMap nid).map Node.type) })
        acc)
    []

/-- `Math.max(...)` over a non-empty rational list (the empty case is never
reached on the path that uses it). -/
def qMaxList : List ℚ → ℚ
  | [] => 0
  | x :: xs => xs.foldl max x

def positionsOf (g : Graph) : SMap NodePos :=
  buildPositions (mapOfList (g.nodes.map (fun n => (n.id, n))))
    (lnOf g) (layerXOf (lnOf g)) (yBOf g)

/-- `computeLayout(graph)`.  The zero-node early return produces an object
without `canvasW` / `canvasH` (both `undefined`, modelled as `none`). -/
def computeLayout (g : Graph) : LayoutResult :=
  if g.nodes = [] then
    { positions := [], layerNodes := [], maxLayer := 0,
      canvasW := none, canvasH := none }
  else
    { positions := positionsOf g
      layerNodes := lnOf g
      maxLayer := maxLayerOf g
      canvasW := some (PAD * 2 + ((maxLayerOf g : ℚ) + 1) * H_STEP)
      canvasH := some (qMaxList ((positionsOf g).map (fun p => p.2.y + p.2.h)) + PAD) }

/-! ### Association-map lemmas -/

theorem mapGet?_mapSet_self {β : Type} (m : SMap β) (k : String) (v : β) :
    mapGet? (mapSet m k v) k = some v := by
  induction m with
  | nil => simp [mapSet, mapGet?]
  | cons p rest ih =>
    by_cases h : p.1 = k
    · simp [mapSet, h, mapGet?]
    · simp [mapSet, h, mapGet?, ih]

theorem mapGet?_mapSet_ne {β : Type} (m : SMap β) (k k' : String) (v : β)
    (h : k ≠ k') : mapGet? (mapSet m k v) k' = mapGet? m k' := by
  induction m with
  | nil => simp [mapSet, mapGet?, h]
  | cons p rest ih =>
    by_cases hp : p.1 = k
    · subst hp
      simp [mapSet, mapGet?, h, ih]
    · simp [mapSet, hp, mapGet?, ih]

theorem mapSet_eq_self {β : Type} (m : SMap β) (k : String) (v : β)
    (h : mapGet? m k = some v) : mapSet m k v = m := by
  induction m with
  | nil => simp [mapGet?] at h
  | cons p rest ih =>
    obtain ⟨pk, pv⟩ := p
    by_cases hp : pk = k
    · subst hp
      simp [mapGet?] at h
      simp [mapSet, h]
    · simp [mapGet?, hp] at h
      simp [mapSet, hp, ih h]

theorem mem_keys_mapSet {β : Type} (m : SMap β) (k a : String) (v : β) :
    a ∈ (mapSet m k v).map Prod.fst ↔ a ∈ m.map Prod.fst ∨ a = k := by
  induction m with
  | nil => simp [mapSet]
  | cons p rest ih =>
    obtain ⟨pk, pv⟩ := p
    by_cases hp : pk = k
    · subst hp; simp [mapSet]; tauto
    · simp only [mapSet, if_neg hp, List.map_cons, List.mem_cons, ih]
      tauto

theorem nodup_keys_mapSet {β : Type} (m : SMap β) (k : String) (v : β)
    (h : (m.map Prod.fst).Nodup) : ((mapSet m k v).map Prod.fst).Nodup := by
  induction m with
  | nil => simp [mapSet]
  | cons p rest ih =>
    obtain ⟨pk, pv⟩ := p
    simp only [List.map_cons, List.nodup_cons] at h
    by_cases hp : pk = k
    · subst hp
      have hs : mapSet ((pk, pv) :: rest) pk v = (pk, v) :: rest := by
        simp [mapSet]
      rw [hs]
      simpa using h
    · simp only [mapSet, if_neg hp, List.map_cons, List.nodup_cons]
      refine ⟨fun hc => ?_, ih h.2⟩
      rcases (mem_keys_mapSet rest k pk v).1 hc with h1 | h1
      · exact h.1 h1
      · exact hp h1

theorem mapGet?_isSome_iff {β : Type} (m : SMap β) (k : String) :
    (mapGet? m k).isSome = true ↔ k ∈ m.map Prod.fst := by
  induction m with
  | nil => simp [mapGet?]
  | cons p rest ih =>
    by_cases hp : p.1 = k
    · simp [mapGet?, hp]
    · simp [mapGet?, hp, ih, Ne.symm hp]

theorem mapHas_iff {β : Type} (m : SMap β) (k : String) :
    mapHas m k = true ↔ k ∈ m.map Prod.fst := mapGet?_isSome_iff m k

theorem keys_mapUpdate {β : Type} (m : SMap β) (k : String) (f : β → β) :
    (mapUpdate m k f).map Prod.fst = m.map Prod.fst := by
  induction m with
  | nil => simp [mapUpdate]
  | cons p rest ih =>
    by_cases hp : p.1 = k
    · simp [mapUpdate, hp]
    · simp [mapUpdate, hp, ih]

theorem mapGet?_mapUpdate_ne {β : Type} (m : SMap β) (k k' : String) (f : β → β)
    (h : k ≠ k') : mapGet? (mapUpdate m k f) k' = mapGet? m k' := by
  induction m with
  | nil => simp [mapUpdate]
  | cons p rest ih =>
    by_cases hp : p.1 = k
    · subst hp; simp [mapUpdate, mapGet?, h, ih]
    · simp [mapUpdate, hp, mapGet?, ih]

theorem mapGet?_mapUpdate_self {β : Type} (m : SMap β) (k : String) (f : β → β)
    (h : (m.map Prod.fst).Nodup) :
    mapGet? (mapUpdate m k f) k = (mapGet? m k).map f := by
  induction m with
  | nil => simp [mapUpdate, mapGet?]
  | cons p rest ih =>
    simp only [List.map_cons, List.nodup_cons] at h
    by_cases hp : p.1 = k
    · simp [mapUpdate, hp, mapGet?]
    · simp [mapUpdate, hp, mapGet?, ih h.2]

theorem mapSet_of_not_mem {β : Type} (m : SMap β) (k : String) (v : β)
    (h : k ∉ m.map Prod.fst) : mapSet m k v = m ++ [(k, v)] := by
  induction m with
  | nil => simp [mapSet]
  | cons p rest ih =>
    simp only [List.map_cons, List.mem_cons] at h
    push_neg at h
    simp [mapSet, Ne.symm h.1, ih h.2]

theorem mapOfList_eq_self {β : Type} (ps : List (String × β))
    (h : (ps.map Prod.fst).Nodup) : mapOfList ps = ps := by
  suffices hgen : ∀ (acc : SMap β), (∀ p ∈ ps, p.1 ∉ acc.map Prod.fst) →
      ps.foldl (fun m p => mapSet m p.1 p.2) acc = acc ++ ps by
    simpa using hgen [] (by simp)
  induction ps with
  | nil => intro acc _; simp
  | cons p rest ih =>
    intro acc hacc
    simp only [List.map_cons, List.nodup_cons] at h
    simp only [List.foldl_cons]
    rw [mapSet_of_not_mem acc p.1 p.2 (hacc p (by simp))]
    rw [ih h.2 (acc ++ [(p.1, p.2)]) ?_]
    · simp
    · intro q hq
      simp only [List.map_append, List.mem_append]
      push_neg
      refine ⟨hacc q (by simp [hq]), ?_⟩
      intro hc
      simp at hc
      exact h.1 (hc ▸ (List.mem_map.2 ⟨q, hq, rfl⟩))

theorem mem_keys_mapOfList {β : Type} (ps : List (String × β)) (a : String) :
    a ∈ (mapOfList ps).map Prod.fst ↔ a ∈ ps.map Prod.fst := by
  suffices hgen : ∀ acc : SMap β,
      (a ∈ (ps.foldl (fun m p => mapSet m p.1 p.2) acc).map Prod.fst ↔
        a ∈ acc.map Prod.fst ∨ a ∈ ps.map Prod.fst) by
    simpa [mapOfList] using hgen []
  induction ps with
  | nil => intro acc; simp
  | cons p rest ih =>
    intro acc
    simp only [List.foldl_cons]
    rw [ih (mapSet acc p.1 p.2), mem_keys_mapSet]
    simp only [List.map_cons, List.mem_cons]
    tauto

theorem mapHas_eq_false_iff {β : Type} (m : SMap β) (k : String) :
    mapHas m k = false ↔ k ∉ m.map Prod.fst := by
  rw [← mapHas_iff]
  cases h : mapHas m k <;> simp

theorem keys_adjFold (es : List Edge)
    (st : SMap (List String) × SMap (List String)) :
    ((es.foldl adjStep st).1.map Prod.fst = st.1.map Prod.fst) ∧
    ((es.foldl adjStep st).2.map Prod.fst = st.2.map Prod.fst) := by
  induction es generalizing st with
  | nil => simp
  | cons e rest ih =>
    simp only [List.foldl_cons]
    have hstep : ((adjStep st e).1.map Prod.fst = st.1.map Prod.fst) ∧
        ((adjStep st e).2.map Prod.fst = st.2.map Prod.fst) := by
      unfold adjStep
      by_cases hc : (mapHas st.1 e.target && mapHas st.2 e.source) = true
      · simp [hc, keys_mapUpdate]
      · simp [hc]
    have := ih (adjStep st e)
    exact ⟨this.1.trans hstep.1, this.2.trans hstep.2⟩

theorem adjStep_skip (st : SMap (List String) × SMap (List String)) (e : Edge)
    (h : mapHas st.1 e.target = false ∨ mapHas st.2 e.source = false) :
    adjStep st e = st := by
  unfold adjStep
  rcases h with h | h <;> simp [h]

theorem buildAdj_dangling (nodes : List Node) (e1 e2 : List Edge) (e : Edge)
    (h : e.source ∉ nodes.map Node.id ∨ e.target ∉ nodes.map Node.id) :
    buildAdj nodes (e1 ++ e :: e2) = buildAdj nodes (e1 ++ e2) := by
  unfold buildAdj
  rw [List.foldl_append, List.foldl_append, List.foldl_cons]
  congr 1
  apply adjStep_skip
  have hk := keys_adjFold e1 (predInit nodes, predInit nodes)
  have hpi : ∀ a, a ∈ (predInit nodes).map Prod.fst ↔ a ∈ nodes.map Node.id := by
    intro a
    unfold predInit
    rw [mem_keys_mapOfList]
    simp
  rcases h with h | h
  · right
    rw [mapHas_eq_false_iff, hk.2, hpi]
    exact h
  · left
    rw [mapHas_eq_false_iff, hk.1, hpi]
    exact h

theorem computeLayout_congr (g g' : Graph) (hn : g.nodes = g'.nodes)
    (hadj : buildAdj g.nodes g.edges = buildAdj g'.nodes g'.edges) :
    computeLayout g = computeLayout g' := by
  have hp : predOf g = predOf g' := by unfold predOf; rw [hadj]
  have hs : succOf g = succOf g' := by unfold succOf; rw [hadj]
  have hk : kahnOf g = kahnOf g' := by unfold kahnOf; rw [hp, hs, hn]
  have hl : layerMapOf g = layerMapOf g' := by unfold layerMapOf; rw [hk, hn]
  have hm : maxLayerOf g = maxLayerOf g' := by unfold maxLayerOf; rw [hl]
  have hln : lnOf g = lnOf g' := by unfold lnOf; rw [hp, hs, hm, hl]
  have hyA : yAOf g = yAOf g' := by unfold yAOf; rw [hp, hln]
  have hyB : yBOf g = yBOf g' := by unfold yBOf; rw [hs, hm, hln, hyA]
  have hpos : positionsOf g = positionsOf g' := by
    unfold positionsOf; rw [hn, hln, hyB]
  unfold computeLayout
  rw [hn, hpos, hln, hm]

/-! ### Claim theorems: determinism, empty graph, dangling edges -/

/-- C2: the layout computation is a pure function of its input: two
invocations on identical input (same node order, same edge order) yield the
same position map entry for entry and the same canvas dimensions.  The
embedding is deterministic by construction: iteration follows the JS `Map`
insertion order and the sweeps use a stable sort, so no result depends on
anything but the input. -/
theorem computeLayout_deterministic (g1 g2 : Graph) (h : g1 = g2) :
    (∀ nid, mapGet? (computeLayout g1).positions nid
        = mapGet? (computeLayout g2).positions nid) ∧
    (computeLayout g1).canvasW = (computeLayout g2).canvasW ∧
    (computeLayout g1).canvasH = (computeLayout g2).canvasH := by
  subst h
  exact ⟨fun _ => rfl, rfl, rfl⟩

theorem computeLayout_deterministic_witness :
    (∀ nid, mapGet? (computeLayout ⟨[⟨"A", "op"⟩], [⟨"A", "A"⟩]⟩).positions nid
        = mapGet? (computeLayout ⟨[⟨"A", "op"⟩], [⟨"A", "A"⟩]⟩).positions nid) ∧
    (computeLayout ⟨[⟨"A", "op"⟩], [⟨"A", "A"⟩]⟩).canvasW
        = (computeLayout ⟨[⟨"A", "op"⟩], [⟨"A", "A"⟩]⟩).canvasW ∧
    (computeLayout ⟨[⟨"A", "op"⟩], [⟨"A", "A"⟩]⟩).canvasH
        = (computeLayout ⟨[⟨"A", "op"⟩], [⟨"A", "A"⟩]⟩).canvasH :=
  computeLayout_deterministic _ _ rfl

/-- C6 counterexample: on the empty graph the position map is empty as
claimed, but the returned object carries no `canvasW`/`canvasH` at all (the
early return omits both fields, so they are `undefined`, modelled `none`) —
refuting the claim that the canvas dimensions are defined numbers. -/
theorem empty_graph_canvas_undefined :
    (computeLayout ⟨[], []⟩).positions = [] ∧
    (computeLayout ⟨[], []⟩).canvasW = none ∧
    (computeLayout ⟨[], []⟩).canvasH = none :=
  ⟨rfl, rfl, rfl⟩

/-- C6 (amended): for every zero-node graph, the layout computation returns
the fixed early-return record: an empty position map, empty layer list,
`maxLayer = 0`, and no canvas dimensions (`canvasW`/`canvasH` are absent,
i.e. `undefined`, not numbers). -/
theorem empty_graph_layout (es : List Edge) :
    computeLayout ⟨[], es⟩ =
      { positions := [], layerNodes := [], maxLayer := 0,
        canvasW := none, canvasH := none } := rfl

theorem empty_graph_layout_witness :
    computeLayout ⟨[], [⟨"X", "Y"⟩]⟩ =
      { positions := [], layerNodes := [], maxLayer := 0,
        canvasW := none, canvasH := none } :=
  empty_graph_layout [⟨"X", "Y"⟩]

/-- C7: an edge whose source or target id matches no node contributes
nothing to the adjacency maps, and the whole layout of the graph equals the
layout of the graph with that edge removed; the computation is total, so no
error is raised. -/
theorem dangling_edge_dropped (nodes : List Node) (e1 e2 : List Edge) (e : Edge)
    (h : e.source ∉ nodes.map Node.id ∨ e.target ∉ nodes.map Node.id) :
    buildAdj nodes (e1 ++ e :: e2) = buildAdj nodes (e1 ++ e2) ∧
    computeLayout ⟨nodes, e1 ++ e :: e2⟩ = computeLayout ⟨nodes, e1 ++ e2⟩ := by
  have hb := buildAdj_dangling nodes e1 e2 e h
  exact ⟨hb, computeLayout_congr _ _ rfl hb⟩

theorem dangling_edge_dropped_witness :
    (("X" : String) ∉ [Node.mk "A" "op"].map Node.id ∨
      ("A" : String) ∉ [Node.mk "A" "op"].map Node.id) ∧
    (buildAdj [Node.mk "A" "op"] ([] ++ Edge.mk "X" "A" :: []) =
        buildAdj [Node.mk "A" "op"] ([] ++ []) ∧
      computeLayout ⟨[Node.mk "A" "op"], [] ++ Edge.mk "X" "A" :: []⟩ =
        computeLayout ⟨[Node.mk "A" "op"], [] ++ []⟩) :=
  ⟨by decide,
    dangling_edge_dropped [Node.mk "A" "op"] [] [] (Edge.mk "X" "A") (by decide)⟩

/-! ### The top-down pass: placement values and vertical gaps -/

theorem placeY_ge (pr : SMap (List String)) (nodeY : SMap ℚ) (nid : String)
    (cursor : ℚ) : cursor ≤ placeY pr nodeY nid cursor := by
  unfold placeY
  by_cases h : (mapGetD pr nid []).filter (fun p => mapHas nodeY p) = []
  · simp [h]
  · simp only [h, if_neg h]
    exact le_max_left _ _

theorem placeLayer_get_notmem (pr : SMap (List String)) (ids : List String)
    (c : ℚ) (nodeY : SMap ℚ) (k : String) (h : k ∉ ids) :
    mapGet? (placeLayer pr ids c nodeY) k = mapGet? nodeY k := by
  induction ids generalizing c nodeY with
  | nil => rfl
  | cons nid rest ih =>
    simp only [List.mem_cons] at h
    push_neg at h
    unfold placeLayer
    rw [ih _ _ h.2, mapGet?_mapSet_ne _ _ _ _ (Ne.symm h.1)]

theorem placeLayer_head_get (pr : SMap (List String)) (nid : String)
    (rest : List String) (c : ℚ) (nodeY : SMap ℚ) (h : nid ∉ rest) :
    mapGet? (placeLayer pr (nid :: rest) c nodeY) nid =
      some (placeY pr nodeY nid c) := by
  unfold placeLayer
  rw [placeLayer_get_notmem pr rest _ _ nid h, mapGet?_mapSet_self]

theorem placeLayer_gap (pr : SMap (List String)) (ids : List String)
    (c : ℚ) (nodeY : SMap ℚ) (hnd : ids.Nodup) (a b : String)
    (hab : (a, b) ∈ ids.zip ids.tail) :
    ∃ ya yb, mapGet? (placeLayer pr ids c nodeY) a = some ya ∧
      mapGet? (placeLayer pr ids c nodeY) b = some yb ∧
      ya + V_STEP ≤ yb := by
  induction ids generalizing c nodeY with
  | nil => simp at hab
  | cons x rest ih =>
    cases rest with
    | nil => simp at hab
    | cons y rest' =>
      have hnd' : (y :: rest').Nodup := (List.nodup_cons.1 hnd).2
      have hx : x ∉ y :: rest' := (List.nodup_cons.1 hnd).1
      have hunf : placeLayer pr (x :: y :: rest') c nodeY =
          placeLayer pr (y :: rest') (placeY pr nodeY x c + V_STEP)
            (mapSet nodeY x (placeY pr nodeY x c)) := rfl
      rw [hunf]
      simp only [List.tail_cons, List.zip_cons_cons, List.mem_cons] at hab
      rcases hab with hab | hab
      · obtain ⟨h1, h2⟩ := Prod.mk.inj hab
        subst h1; subst h2
        have hy : b ∉ rest' := (List.nodup_cons.1 hnd').1
        refine ⟨placeY pr nodeY a c,
          placeY pr (mapSet nodeY a (placeY pr nodeY a c)) b
            (placeY pr nodeY a c + V_STEP), ?_, ?_, ?_⟩
        · rw [placeLayer_get_notmem pr _ _ _ a hx, mapGet?_mapSet_self]
        · exact placeLayer_head_get pr b rest' _ _ hy
        · exact placeY_ge pr _ b _
      · exact ih _ _ hnd' hab

theorem mapHas_placeLayer_mono (pr : SMap (List String)) (ids : List String)
    (c : ℚ) (nodeY : SMap ℚ) (k : String) (h : mapHas nodeY k = true) :
    mapHas (placeLayer pr ids c nodeY) k = true := by
  induction ids generalizing c nodeY with
  | nil => exact h
  | cons nid rest ih =>
    unfold placeLayer
    apply ih
    by_cases hk : nid = k
    · subst hk
      simp [mapHas, mapGet?_mapSet_self]
    · simpa [mapHas, mapGet?_mapSet_ne _ _ _ _ hk] using h

theorem mapHas_placeLayer_of_mem (pr : SMap (List String)) (ids : List String)
    (c : ℚ) (nodeY : SMap ℚ) (k : String) (h : k ∈ ids) :
    mapHas (placeLayer pr ids c nodeY) k = true := by
  induction ids generalizing c nodeY with
  | nil => simp at h
  | cons nid rest ih =>
    unfold placeLayer
    rcases List.mem_cons.1 h with h1 | h1
    · subst h1
      apply mapHas_placeLayer_mono
      simp [mapHas, mapGet?_mapSet_self]
    · exact ih _ _ h1

theorem placeLayer_ge_pad (pr : SMap (List String)) (ids : List String)
    (c : ℚ) (nodeY : SMap ℚ) (hc : PAD ≤ c)
    (hY : ∀ k yv, mapGet? nodeY k = some yv → PAD ≤ yv) :
    ∀ k yv, mapGet? (placeLayer pr ids c nodeY) k = some yv → PAD ≤ yv := by
  induction ids generalizing c nodeY with
  | nil => exact hY
  | cons nid rest ih =>
    unfold placeLayer
    apply ih
    · calc PAD ≤ c := hc
        _ ≤ placeY pr nodeY nid c := placeY_ge pr nodeY nid c
        _ ≤ placeY pr nodeY nid c + V_STEP := by
            have : (0 : ℚ) ≤ V_STEP := by norm_num [V_STEP]
            linarith
    · intro k yv hk
      by_cases hkn : nid = k
      · subst hkn
        rw [mapGet?_mapSet_self] at hk
        have := placeY_ge pr nodeY nid c
        cases hk
        linarith
      · rw [mapGet?_mapSet_ne _ _ _ _ hkn] at hk
        exact hY k yv hk

theorem assignY_get_of_mem (pr : SMap (List String)) (ln : List (List String))
    (k : String) (h : k ∈ ln.flatten) :
    ∃ yv, mapGet? (assignY pr ln) k = some yv ∧ PAD ≤ yv := by
  have hhas : ∀ (ln : List (List String)) (nY : SMap ℚ),
      (mapHas nY k = true ∨ k ∈ ln.flatten) →
      mapHas (ln.foldl (fun m ids => placeLayer pr ids PAD m) nY) k = true := by
    intro ln
    induction ln with
    | nil =>
      intro nY h
      rcases h with h | h
      · exact h
      · simp at h
    | cons ids rest ih =>
      intro nY h
      simp only [List.foldl_cons]
      apply ih
      rcases h with h | h
      · exact Or.inl (mapHas_placeLayer_mono pr ids PAD nY k h)
      · rcases List.mem_flatten.1 h with ⟨l, hl, hk⟩
        rcases List.mem_cons.1 hl with h1 | h1
        · exact Or.inl (mapHas_placeLayer_of_mem pr _ PAD nY k (h1 ▸ hk))
        · exact Or.inr (List.mem_flatten.2 ⟨l, h1, hk⟩)
  have hpad : ∀ (ln : List (List String)) (nY : SMap ℚ),
      (∀ k' yv, mapGet? nY k' = some yv → PAD ≤ yv) →
      ∀ k' yv, mapGet? (ln.foldl (fun m ids => placeLayer pr ids PAD m) nY) k'
        = some yv → PAD ≤ yv := by
    intro ln
    induction ln with
    | nil => intro nY h; exact h
    | cons ids rest ih =>
      intro nY h
      simp only [List.foldl_cons]
      exact ih _ (placeLayer_ge_pad pr ids PAD nY le_rfl h)
  have h1 := hhas ln [] (Or.inr h)
  unfold assignY
  rcases Option.isSome_iff_exists.1 h1 with ⟨yv, hyv⟩
  refine ⟨yv, hyv, ?_⟩
  exact hpad ln [] (by intro k' yv' hc; simp [mapGet?] at hc) k yv hyv

/-! ### The bottom-up pass changes nothing -/

theorem refineY_id_aux (nodeY : SMap ℚ) (nid : String) (yv maxY : ℚ)
    (hget : mapGet? nodeY nid = some yv) (hyv : PAD ≤ yv) :
    (if mapGetD nodeY nid 0 < maxY then nodeY
     else mapSet nodeY nid
       (max (mapGetD nodeY nid 0) (if maxY < PAD then PAD else maxY))) =
      nodeY := by
  have hd : mapGetD nodeY nid 0 = yv := by simp [mapGetD, hget]
  rw [hd]
  by_cases hlt : yv < maxY
  · rw [if_pos hlt]
  · push_neg at hlt
    rw [if_neg (not_lt.2 hlt)]
    apply mapSet_eq_self
    by_cases hp : maxY < PAD
    · rw [if_pos hp, max_eq_left hyv]
      exact hget
    · rw [if_neg hp, max_eq_left hlt]
      exact hget

theorem refineY_id (su : SMap (List String)) (nodeY : SMap ℚ) (nid : String)
    (ceiling : Option ℚ) (yv : ℚ) (hget : mapGet? nodeY nid = some yv)
    (hyv : PAD ≤ yv) : refineY su nodeY nid ceiling = nodeY := by
  unfold refineY
  by_cases hss : (mapGetD su nid []).filter (fun p => mapHas nodeY p) = []
  · simp [hss]
  · simp only [hss, if_neg hss]
    cases ceiling with
    | none => exact refineY_id_aux nodeY nid yv _ hget hyv
    | some c => exact refineY_id_aux nodeY nid yv _ hget hyv

theorem refineLayer_id (su : SMap (List String)) (ids : List String)
    (ceiling : Option ℚ) (nodeY : SMap ℚ)
    (h : ∀ nid ∈ ids, ∃ yv, mapGet? nodeY nid = some yv ∧ PAD ≤ yv) :
    refineLayer su ids ceiling nodeY = nodeY := by
  induction ids generalizing ceiling with
  | nil => rfl
  | cons nid rest ih =>
    obtain ⟨yv, hget, hyv⟩ := h nid (by simp)
    unfold refineLayer
    rw [refineY_id su nodeY nid ceiling yv hget hyv]
    exact ih _ (fun x hx => h x (by simp [hx]))

theorem refineAll_id (su : SMap (List String)) (maxLayer : Nat)
    (ln : List (List String)) (nodeY : SMap ℚ)
    (h : ∀ nid ∈ ln.flatten, ∃ yv, mapGet? nodeY nid = some yv ∧ PAD ≤ yv) :
    refineAll su maxLayer ln nodeY = nodeY := by
  unfold refineAll
  generalize (List.range maxLayer).reverse = is
  induction is with
  | nil => rfl
  | cons l rest ih =>
    simp only [List.foldl_cons]
    rw [refineLayer_id su _ none nodeY ?_]
    · exact ih
    · intro nid hnid
      apply h
      rw [List.mem_reverse] at hnid
      by_cases hl : l < ln.length
      · have hmem : ln.getD l [] ∈ ln := by
          rw [List.getD_eq_getElem?_getD, List.getElem?_eq_getElem hl]
          simp
        exact List.mem_flatten.2 ⟨ln.getD l [], hmem, hnid⟩
      · rw [List.getD_eq_default _ _ (Nat.le_of_not_lt hl)] at hnid
        simp at hnid

/-! ### Bucket structure: the flattened layer lists permute the layer keys -/

theorem le_natMaxList (l : List Nat) (x : Nat) (h : x ∈ l) : x ≤ natMaxList l := by
  induction l with
  | nil => simp at h
  | cons a rest ih =>
    rcases List.mem_cons.1 h with h1 | h1
    · subst h1; exact le_max_left _ _
    · exact (ih h1).trans (le_max_right _ _)

theorem set_append_flatten_perm (buckets : List (List String)) (i : Nat)
    (x : String) (h : i < buckets.length) :
    List.Perm (buckets.set i (buckets.getD i [] ++ [x])).flatten
      (buckets.flatten ++ [x]) := by
  induction buckets generalizing i with
  | nil => simp at h
  | cons b rest ih =>
    cases i with
    | zero =>
      simp only [List.set_cons_zero, List.getD_cons_zero, List.flatten_cons]
      have h1 : List.Perm ((b ++ [x]) ++ rest.flatten)
          (b ++ ([x] ++ rest.flatten)) := by
        rw [List.append_assoc]
      have h2 : List.Perm (b ++ ([x] ++ rest.flatten))
          (b ++ (rest.flatten ++ [x])) :=
        List.perm_append_comm.append_left b
      have h3 : b ++ (rest.flatten ++ [x]) = (b ++ rest.flatten) ++ [x] := by
        rw [List.append_assoc]
      exact h3 ▸ (h1.trans h2)
    | succ j =>
      simp only [List.set_cons_succ, List.getD_cons_succ, List.flatten_cons]
      have hj : j < rest.length := by simpa using h
      have h1 := (ih j hj).append_left b
      have h2 : b ++ (rest.flatten ++ [x]) = (b ++ rest.flatten) ++ [x] := by
        rw [List.append_assoc]
      exact h2 ▸ h1

theorem set_perm_flatten_perm (buckets : List (List String)) (i : Nat)
    (b' : List String) (hp : List.Perm b' (buckets.getD i [])) :
    List.Perm (buckets.set i b').flatten buckets.flatten := by
  by_cases h : i < buckets.length
  · induction buckets generalizing i with
    | nil => simp at h
    | cons b rest ih =>
      cases i with
      | zero =>
        simp only [List.set_cons_zero, List.flatten_cons]
        exact (List.getD_cons_zero .. ▸ hp).append_right rest.flatten
      | succ j =>
        simp only [List.set_cons_succ, List.flatten_cons]
        have hj : j < rest.length := by simpa using h
        exact (ih j (by simpa using hp) hj).append_left b
  · rw [List.set_eq_of_length_le (Nat.le_of_not_lt h)]

theorem groupFold_flatten_perm (L : SMap Nat) (buckets : List (List String))
    (h : ∀ p ∈ L, p.2 < buckets.length) :
    List.Perm
      (L.foldl (fun b p => b.set p.2 (b.getD p.2 [] ++ [p.1])) buckets).flatten
      (buckets.flatten ++ L.map Prod.fst) := by
  induction L generalizing buckets with
  | nil => simp
  | cons p rest ih =>
    simp only [List.foldl_cons]
    have hlen : (buckets.set p.2 (buckets.getD p.2 [] ++ [p.1])).length =
        buckets.length := by simp
    have h1 := ih (buckets.set p.2 (buckets.getD p.2 [] ++ [p.1]))
      (by intro q hq; rw [hlen]; exact h q (by simp [hq]))
    have h2 := (set_append_flatten_perm buckets p.2 p.1
      (h p (by simp))).append_right (rest.map Prod.fst)
    have h3 : (buckets.flatten ++ [p.1]) ++ rest.map Prod.fst =
        buckets.flatten ++ (p :: rest).map Prod.fst := by
      rw [List.append_assoc]
      simp
    exact h1.trans (h3 ▸ h2)

theorem groupLayers_flatten_perm (L : SMap Nat) (maxLayer : Nat)
    (h : ∀ p ∈ L, p.2 ≤ maxLayer) :
    List.Perm (groupLayers L maxLayer).flatten (L.map Prod.fst) := by
  unfold groupLayers
  have := groupFold_flatten_perm L (List.replicate (maxLayer + 1) [])
    (by intro p hp; simpa using Nat.lt_succ_of_le (h p hp))
  simpa using this

theorem sweepAt_flatten_perm (adj : SMap (List String)) (src dst : Nat)
    (ln : List (List String)) :
    List.Perm (sweepAt adj src dst ln).flatten ln.flatten := by
  unfold sweepAt sortLayer
  exact set_perm_flatten_perm ln dst _ (List.perm_insertionSort _ _)

theorem sweepFold_flatten_perm
    (f : Nat → List (List String) → List (List String))
    (hf : ∀ l ln, List.Perm (f l ln).flatten ln.flatten) (is : List Nat)
    (ln : List (List String)) :
    List.Perm ((is.foldl (fun acc l => f l acc) ln).flatten) ln.flatten := by
  induction is generalizing ln with
  | nil => exact List.Perm.refl _
  | cons i rest ih =>
    simp only [List.foldl_cons]
    exact (ih (f i ln)).trans (hf i ln)

theorem crossingMin_flatten_perm (pr su : SMap (List String)) (maxLayer : Nat)
    (ln : List (List String)) :
    List.Perm (crossingMin pr su maxLayer ln).flatten ln.flatten := by
  unfold crossingMin
  refine ((sweepFold_flatten_perm _ ?_ _ _).trans
    ((sweepFold_flatten_perm _ ?_ _ _).trans (sweepFold_flatten_perm _ ?_ _ _)))
  · intro l acc; exact sweepAt_flatten_perm pr (l - 1) l acc
  · intro l acc; exact sweepAt_flatten_perm su (l + 1) l acc
  · intro l acc; exact sweepAt_flatten_perm pr (l - 1) l acc

/-! ### Keys of the layer map -/

theorem mem_of_mapGet? {β : Type} (m : SMap β) (k : String) (v : β)
    (h : mapGet? m k = some v) : (k, v) ∈ m := by
  induction m with
  | nil => simp [mapGet?] at h
  | cons p rest ih =>
    obtain ⟨pk, pv⟩ := p
    by_cases hp : pk = k
    · subst hp
      simp [mapGet?] at h
      simp [h]
    · simp [mapGet?, hp] at h
      simp [ih h]

theorem entries_mapSet_subset {β : Type} (m : SMap β) (k : String) (v : β)
    (q : String × β) (h : q ∈ mapSet m k v) : q ∈ m ∨ q = (k, v) := by
  induction m with
  | nil => simp [mapSet] at h; simp [h]
  | cons p rest ih =>
    obtain ⟨pk, pv⟩ := p
    by_cases hp : pk = k
    · subst hp
      simp [mapSet] at h
      rcases h with h | h
      · right; simp [h]
      · left; simp [h]
    · simp [mapSet, hp] at h
      rcases h with h | h
      · left; simp [h]
      · rcases ih h with h1 | h1
        · left; simp [h1]
        · right; exact h1

theorem entries_mapOfList_subset {β : Type} (ps : List (String × β))
    (q : String × β) (h : q ∈ mapOfList ps) : q ∈ ps := by
  suffices hgen : ∀ acc : SMap β,
      q ∈ ps.foldl (fun m p => mapSet m p.1 p.2) acc → q ∈ acc ∨ q ∈ ps by
    rcases hgen [] h with h1 | h1
    · simp at h1
    · exact h1
  clear h
  induction ps with
  | nil => intro acc h1; exact Or.inl h1
  | cons p rest ih =>
    intro acc h1
    simp only [List.foldl_cons] at h1
    rcases ih (mapSet acc p.1 p.2) h1 with h2 | h2
    · rcases entries_mapSet_subset acc p.1 p.2 q h2 with h3 | h3
      · exact Or.inl h3
      · right; simp [h3]
    · right; simp [h2]

theorem nodup_keys_mapOfList {β : Type} (ps : List (String × β)) :
    ((mapOfList ps).map Prod.fst).Nodup := by
  suffices hgen : ∀ acc : SMap β, (acc.map Prod.fst).Nodup →
      ((ps.foldl (fun m p => mapSet m p.1 p.2) acc).map Prod.fst).Nodup by
    exact hgen [] (by simp)
  induction ps with
  | nil => intro acc h; exact h
  | cons p rest ih =>
    intro acc h
    simp only [List.foldl_cons]
    exact ih _ (nodup_keys_mapSet acc p.1 p.2 h)

theorem proposeLayer_of_none (layer : SMap Nat) (v : String) (p : Nat)
    (hv : mapGet? layer v = none) :
    proposeLayer layer v p = mapSet layer v p := by
  unfold proposeLayer
  rw [hv]

theorem proposeLayer_of_lt (layer : SMap Nat) (v : String) (p lv : Nat)
    (hv : mapGet? layer v = some lv) (hlt : lv < p) :
    proposeLayer layer v p = mapSet layer v p := by
  unfold proposeLayer
  rw [hv]
  show (if lv < p then mapSet layer v p else layer) = mapSet layer v p
  rw [if_pos hlt]

theorem proposeLayer_of_ge (layer : SMap Nat) (v : String) (p lv : Nat)
    (hv : mapGet? layer v = some lv) (hge : ¬ lv < p) :
    proposeLayer layer v p = layer := by
  unfold proposeLayer
  rw [hv]
  show (if lv < p then mapSet layer v p else layer) = layer
  rw [if_neg hge]

theorem proposeLayer_keys_nodup (layer : SMap Nat) (v : String) (p : Nat)
    (h : (layer.map Prod.fst).Nodup) :
    ((proposeLayer layer v p).map Prod.fst).Nodup := by
  cases hv : mapGet? layer v with
  | none =>
    rw [proposeLayer_of_none layer v p hv]
    exact nodup_keys_mapSet layer v p h
  | some lv =>
    by_cases hlt : lv < p
    · rw [proposeLayer_of_lt layer v p lv hv hlt]
      exact nodup_keys_mapSet layer v p h
    · rw [proposeLayer_of_ge layer v p lv hv hlt]
      exact h

theorem mem_keys_proposeLayer (layer : SMap Nat) (v : String) (p : Nat)
    (k : String) (h : k ∈ (proposeLayer layer v p).map Prod.fst) :
    k ∈ layer.map Prod.fst ∨ k = v := by
  cases hv : mapGet? layer v with
  | none =>
    rw [proposeLayer_of_none layer v p hv] at h
    exact (mem_keys_mapSet layer v k p).1 h
  | some lv =>
    by_cases hlt : lv < p
    · rw [proposeLayer_of_lt layer v p lv hv hlt] at h
      exact (mem_keys_mapSet layer v k p).1 h
    · rw [proposeLayer_of_ge layer v p lv hv hlt] at h
      exact Or.inl h

theorem kahnStep_keys (S : List String) (proposed : Nat) (succs : List String)
    (layer : SMap Nat) (inDeg : SMap Int) (enq : List String)
    (hnd : (layer.map Prod.fst).Nodup)
    (hmem : ∀ k ∈ layer.map Prod.fst, k ∈ S)
    (hsuccs : ∀ v ∈ succs, v ∈ S) :
    (((kahnStep proposed succs layer inDeg enq).1.map Prod.fst).Nodup) ∧
    (∀ k ∈ (kahnStep proposed succs layer inDeg enq).1.map Prod.fst, k ∈ S) := by
  induction succs generalizing layer inDeg enq with
  | nil => exact ⟨hnd, hmem⟩
  | cons v rest ih =>
    apply ih
    · exact proposeLayer_keys_nodup layer v proposed hnd
    · intro k hk
      rcases mem_keys_proposeLayer layer v proposed k hk with h1 | h1
      · exact hmem k h1
      · subst h1; exact hsuccs k (by simp)
    · intro x hx; exact hsuccs x (by simp [hx])

theorem kahnLoop_keys (su : SMap (List String)) (S : List String)
    (hsu : ∀ u x, x ∈ mapGetD su u [] → x ∈ S) (fuel : Nat)
    (pending : List String) (layer : SMap Nat) (inDeg : SMap Int)
    (hnd : (layer.map Prod.fst).Nodup)
    (hmem : ∀ k ∈ layer.map Prod.fst, k ∈ S) :
    (((kahnLoop su fuel pending layer inDeg).1.map Prod.fst).Nodup) ∧
    (∀ k ∈ (kahnLoop su fuel pending layer inDeg).1.map Prod.fst, k ∈ S) := by
  induction fuel generalizing pending layer inDeg with
  | zero => exact ⟨hnd, hmem⟩
  | succ f ih =>
    cases pending with
    | nil => exact ⟨hnd, hmem⟩
    | cons nid rest =>
      have hstep := kahnStep_keys S (mapGetD layer nid 0 + 1)
        (mapGetD su nid []) layer inDeg [] hnd hmem (fun v hv => hsu nid v hv)
      exact ih _ _ _ hstep.1 hstep.2

theorem adjFold_values (edges : List Edge)
    (st : SMap (List String) × SMap (List String))
    (hnd1 : (st.1.map Prod.fst).Nodup) (hnd2 : (st.2.map Prod.fst).Nodup)
    (hk : ∀ a, a ∈ st.1.map Prod.fst ↔ a ∈ st.2.map Prod.fst)
    (hv1 : ∀ v x, x ∈ mapGetD st.1 v [] → x ∈ st.1.map Prod.fst)
    (hv2 : ∀ v x, x ∈ mapGetD st.2 v [] → x ∈ st.1.map Prod.fst) :
    (∀ v x, x ∈ mapGetD (edges.foldl adjStep st).1 v [] →
      x ∈ st.1.map Prod.fst) ∧
    (∀ v x, x ∈ mapGetD (edges.foldl adjStep st).2 v [] →
      x ∈ st.1.map Prod.fst) := by
  induction edges generalizing st with
  | nil => exact ⟨hv1, hv2⟩
  | cons e rest ih =>
    simp only [List.foldl_cons]
    have hkeys : ((adjStep st e).1.map Prod.fst = st.1.map Prod.fst) ∧
        ((adjStep st e).2.map Prod.fst = st.2.map Prod.fst) := by
      unfold adjStep
      by_cases hc : (mapHas st.1 e.target && mapHas st.2 e.source) = true
      · simp [hc, keys_mapUpdate]
      · simp [hc]
    have hmain : (∀ v x, x ∈ mapGetD (adjStep st e).1 v [] →
          x ∈ st.1.map Prod.fst) ∧
        (∀ v x, x ∈ mapGetD (adjStep st e).2 v [] → x ∈ st.1.map Prod.fst) := by
      unfold adjStep
      by_cases hc : (mapHas st.1 e.target && mapHas st.2 e.source) = true
      · rw [if_pos hc]
        have hsrc : e.source ∈ st.1.map Prod.fst := by
          rw [hk]
          exact (mapHas_iff st.2 e.source).1 (by
            have := Bool.and_elim_right hc
            exact this)
        have htgt : e.target ∈ st.1.map Prod.fst :=
          (mapHas_iff st.1 e.target).1 (Bool.and_elim_left hc)
        constructor
        · intro v x hx
          by_cases hvt : e.target = v
          · subst hvt
            unfold mapGetD at hx
            rw [mapGet?_mapUpdate_self st.1 e.target _ hnd1] at hx
            cases hget : mapGet? st.1 e.target with
            | none => rw [hget] at hx; simp at hx
            | some l =>
              rw [hget] at hx
              simp at hx
              rcases hx with hx | hx
              · exact hv1 e.target x (by simp [mapGetD, hget, hx])
              · subst hx; exact hsrc
          · unfold mapGetD at hx
            rw [mapGet?_mapUpdate_ne st.1 e.target v _ hvt] at hx
            exact hv1 v x hx
        · intro v x hx
          by_cases hvs : e.source = v
          · subst hvs
            unfold mapGetD at hx
            rw [mapGet?_mapUpdate_self st.2 e.source _ hnd2] at hx
            cases hget : mapGet? st.2 e.source with
            | none => rw [hget] at hx; simp at hx
            | some l =>
              rw [hget] at hx
              simp at hx
              rcases hx with hx | hx
              · exact hv2 e.source x (by simp [mapGetD, hget, hx])
              · subst hx; exact htgt
          · unfold mapGetD at hx
            rw [mapGet?_mapUpdate_ne st.2 e.source v _ hvs] at hx
            exact hv2 v x hx
      · rw [if_neg hc]
        exact ⟨hv1, hv2⟩
    have hres := ih (adjStep st e) (hkeys.1 ▸ hnd1) (hkeys.2 ▸ hnd2)
      (by intro a; rw [hkeys.1, hkeys.2]; exact hk a)
      (by intro v x hx; rw [hkeys.1]; exact hkeys.1 ▸ hmain.1 v x hx)
      (by intro v x hx; rw [hkeys.1]; exact hkeys.1 ▸ hmain.2 v x hx)
    rw [hkeys.1] at hres
    exact hres

theorem predInit_keys_mem (nodes : List Node) (a : String) :
    a ∈ (predInit nodes).map Prod.fst ↔ a ∈ nodes.map Node.id := by
  unfold predInit
  rw [mem_keys_mapOfList]
  simp

theorem predInit_values_nil (nodes : List Node) (v : String) (l : List String)
    (h : mapGet? (predInit nodes) v = some l) : l = [] := by
  have hq := entries_mapOfList_subset _ _ (mem_of_mapGet? _ _ _ h)
  rcases List.mem_map.1 hq with ⟨n, hn, heq⟩
  exact (Prod.mk.inj heq).2.symm

theorem buildAdj_values (nodes : List Node) (edges : List Edge) :
    (∀ v x, x ∈ mapGetD (buildAdj nodes edges).1 v [] → x ∈ nodes.map Node.id) ∧
    (∀ v x, x ∈ mapGetD (buildAdj nodes edges).2 v [] → x ∈ nodes.map Node.id) := by
  unfold buildAdj
  have hnil : ∀ v x, x ∈ mapGetD (predInit nodes) v [] → False := by
    intro v x hx
    unfold mapGetD at hx
    cases hget : mapGet? (predInit nodes) v with
    | none => rw [hget] at hx; simp at hx
    | some l =>
      rw [hget] at hx
      rw [predInit_values_nil nodes v l hget] at hx
      simp at hx
  have h := adjFold_values edges (predInit nodes, predInit nodes)
    (nodup_keys_mapOfList _) (nodup_keys_mapOfList _) (fun a => Iff.rfl)
    (fun v x hx => absurd hx (fun hc => hnil v x hc))
    (fun v x hx => absurd hx (fun hc => hnil v x hc))
  exact ⟨fun v x hx => (predInit_keys_mem nodes x).1 (h.1 v x hx),
    fun v x hx => (predInit_keys_mem nodes x).1 (h.2 v x hx)⟩

theorem withFallback_keys_nodup (L : SMap Nat) (nodes : List Node)
    (h : (L.map Prod.fst).Nodup) :
    ((withFallback L nodes).map Prod.fst).Nodup := by
  unfold withFallback
  induction nodes generalizing L with
  | nil => exact h
  | cons n rest ih =>
    simp only [List.foldl_cons]
    by_cases hn : mapHas L n.id = true
    · rw [if_pos hn]; exact ih L h
    · rw [if_neg hn]; exact ih _ (nodup_keys_mapSet L n.id 0 h)

theorem mem_keys_withFallback (L : SMap Nat) (nodes : List Node) (k : String)
    (h : k ∈ (withFallback L nodes).map Prod.fst) :
    k ∈ L.map Prod.fst ∨ k ∈ nodes.map Node.id := by
  unfold withFallback at h
  induction nodes generalizing L with
  | nil => exact Or.inl h
  | cons n rest ih =>
    simp only [List.foldl_cons] at h
    by_cases hn : mapHas L n.id = true
    · rw [if_pos hn] at h
      rcases ih L h with h1 | h1
      · exact Or.inl h1
      · right; simp [h1]
    · rw [if_neg hn] at h
      rcases ih _ h with h1 | h1
      · rcases (mem_keys_mapSet L n.id k 0).1 h1 with h2 | h2
        · exact Or.inl h2
        · right; simp [h2]
      · right; simp [h1]

theorem withFallback_preserve (L : SMap Nat) (nodes : List Node) (k : String)
    (v : Nat) (h : mapGet? L k = some v) :
    mapGet? (withFallback L nodes) k = some v := by
  unfold withFallback
  induction nodes generalizing L with
  | nil => exact h
  | cons n rest ih =>
    simp only [List.foldl_cons]
    by_cases hn : mapHas L n.id = true
    · rw [if_pos hn]; exact ih L h
    · rw [if_neg hn]
      apply ih
      by_cases hk : n.id = k
      · subst hk
        exfalso
        simp [mapHas, h] at hn
      · rw [mapGet?_mapSet_ne _ _ _ _ hk]
        exact h

theorem withFallback_has (L : SMap Nat) (nodes : List Node) (n : Node)
    (h : n ∈ nodes) : mapHas (withFallback L nodes) n.id = true := by
  unfold withFallback
  induction nodes generalizing L with
  | nil => simp at h
  | cons m rest ih =>
    simp only [List.foldl_cons]
    rcases List.mem_cons.1 h with h1 | h1
    · subst h1
      by_cases hn : mapHas L n.id = true
      · rw [if_pos hn]
        rcases Option.isSome_iff_exists.1 hn with ⟨v, hv⟩
        have hp := withFallback_preserve L rest n.id v hv
        unfold withFallback at hp
        exact Option.isSome_iff_exists.2 ⟨v, hp⟩
      · rw [if_neg hn]
        have hp := withFallback_preserve (mapSet L n.id 0) rest n.id 0
          (mapGet?_mapSet_self L n.id 0)
        unfold withFallback at hp
        exact Option.isSome_iff_exists.2 ⟨0, hp⟩
    · by_cases hn : mapHas L m.id = true
      · rw [if_pos hn]; exact ih L h1
      · rw [if_neg hn]; exact ih _ h1

theorem withFallback_get_zero (L : SMap Nat) (nodes : List Node) (n : Node)
    (hmem : n ∈ nodes) (h : ¬ mapHas L n.id = true) :
    mapGet? (withFallback L nodes) n.id = some 0 := by
  unfold withFallback
  induction nodes generalizing L with
  | nil => simp at hmem
  | cons m rest ih =>
    simp only [List.foldl_cons]
    by_cases hm : mapHas L m.id = true
    · rw [if_pos hm]
      rcases List.mem_cons.1 hmem with h1 | h1
      · subst h1; exact absurd hm h
      · exact ih L h1 h
    · rw [if_neg hm]
      by_cases hid : m.id = n.id
      · have := withFallback_preserve (mapSet L m.id 0) rest n.id 0
          (by rw [hid, ← hid, mapGet?_mapSet_self])
        unfold withFallback at this
        exact this
      · rcases List.mem_cons.1 hmem with h1 | h1
        · subst h1; exact absurd rfl hid
        · apply ih _ h1
          simp only [mapHas] at h ⊢
          rw [mapGet?_mapSet_ne _ _ _ _ hid]
          exact h

theorem layerMap_keys (g : Graph) :
    (((layerMapOf g).map Prod.fst).Nodup) ∧
    (∀ k, k ∈ (layerMapOf g).map Prod.fst ↔ k ∈ g.nodes.map Node.id) := by
  have hsu : ∀ u x, x ∈ mapGetD (succOf g) u [] → x ∈ g.nodes.map Node.id :=
    fun u x hx => (buildAdj_values g.nodes g.edges).2 u x hx
  have hlay0 : ∀ k ∈ (mapOfList ((seedsOf g.nodes
      (inDegInit g.nodes (predOf g))).map (fun nid => (nid, 0)))).map Prod.fst,
      k ∈ g.nodes.map Node.id := by
    intro k hk
    rw [mem_keys_mapOfList] at hk
    simp only [List.map_map] at hk
    rcases List.mem_map.1 hk with ⟨nid, hnid, hk2⟩
    simp at hk2
    subst hk2
    unfold seedsOf at hnid
    rcases List.mem_map.1 hnid with ⟨n, hn, hid⟩
    subst hid
    exact List.mem_map.2 ⟨n, List.mem_of_mem_filter hn, rfl⟩
  have hk := kahnLoop_keys (succOf g) (g.nodes.map Node.id) hsu
    (kahnFuel (seedsOf g.nodes (inDegInit g.nodes (predOf g)))
      (inDegInit g.nodes (predOf g)))
    (seedsOf g.nodes (inDegInit g.nodes (predOf g)))
    (mapOfList ((seedsOf g.nodes (inDegInit g.nodes (predOf g))).map
      (fun nid => (nid, 0))))
    (inDegInit g.nodes (predOf g)) (nodup_keys_mapOfList _) hlay0
  have hkof : (kahnOf g).1 = (kahnLoop (succOf g)
      (kahnFuel (seedsOf g.nodes (inDegInit g.nodes (predOf g)))
        (inDegInit g.nodes (predOf g)))
      (seedsOf g.nodes (inDegInit g.nodes (predOf g)))
      (mapOfList ((seedsOf g.nodes (inDegInit g.nodes (predOf g))).map
        (fun nid => (nid, 0))))
      (inDegInit g.nodes (predOf g))).1 := rfl
  rw [show layerMapOf g = withFallback (kahnOf g).1 g.nodes from rfl, hkof]
  constructor
  · exact withFallback_keys_nodup _ _ hk.1
  · intro k
    constructor
    · intro h
      rcases mem_keys_withFallback _ _ k h with h1 | h1
      · exact hk.2 k h1
      · exact h1
    · intro h
      rcases List.mem_map.1 h with ⟨n, hn, hid⟩
      subst hid
      exact (mapHas_iff _ _).1 (withFallback_has _ _ n hn)

theorem lnOf_flatten_perm (g : Graph) :
    List.Perm (lnOf g).flatten ((layerMapOf g).map Prod.fst) := by
  unfold lnOf
  refine (crossingMin_flatten_perm _ _ _ _).trans ?_
  apply groupLayers_flatten_perm
  intro p hp
  unfold maxLayerOf
  exact le_natMaxList _ _ (List.mem_map.2 ⟨p, hp, rfl⟩)

theorem lnOf_flatten_nodup (g : Graph) : (lnOf g).flatten.Nodup :=
  (lnOf_flatten_perm g).symm.nodup (layerMap_keys g).1

/-! ### From the top-down pass to the final positions -/

theorem yB_eq_yA (g : Graph) : yBOf g = yAOf g := by
  unfold yBOf
  apply refineAll_id
  intro nid hnid
  exact assignY_get_of_mem (predOf g) (lnOf g) nid hnid

theorem assignYFold_get_notmem (pr : SMap (List String))
    (ln : List (List String)) (nY : SMap ℚ) (k : String)
    (h : k ∉ ln.flatten) :
    mapGet? (ln.foldl (fun m ids => placeLayer pr ids PAD m) nY) k =
      mapGet? nY k := by
  induction ln generalizing nY with
  | nil => rfl
  | cons ids rest ih =>
    simp only [List.flatten_cons, List.mem_append] at h
    push_neg at h
    simp only [List.foldl_cons]
    rw [ih _ h.2, placeLayer_get_notmem pr ids PAD nY k h.1]

theorem assignY_gap (pr : SMap (List String)) (ln : List (List String))
    (hnd : ln.flatten.Nodup) (ids : List String) (hids : ids ∈ ln)
    (a b : String) (hab : (a, b) ∈ ids.zip ids.tail) :
    ∃ ya yb, mapGet? (assignY pr ln) a = some ya ∧
      mapGet? (assignY pr ln) b = some yb ∧ ya + V_STEP ≤ yb := by
  unfold assignY
  suffices hgen : ∀ (ln : List (List String)) (nY : SMap ℚ),
      ln.flatten.Nodup → ids ∈ ln →
      ∃ ya yb,
        mapGet? (ln.foldl (fun m ids => placeLayer pr ids PAD m) nY) a
          = some ya ∧
        mapGet? (ln.foldl (fun m ids => placeLayer pr ids PAD m) nY) b
          = some yb ∧ ya + V_STEP ≤ yb by
    exact hgen ln [] hnd hids
  clear hnd hids
  intro ln2
  induction ln2 with
  | nil => intro nY hnd hids; simp at hids
  | cons ids0 rest ih =>
    intro nY hnd hids
    simp only [List.flatten_cons, List.nodup_append] at hnd
    rcases List.mem_cons.1 hids with h1 | h1
    · subst h1
      have ha : a ∈ ids := (List.of_mem_zip hab).1
      have hb : b ∈ ids := List.mem_of_mem_tail (List.of_mem_zip hab).2
      obtain ⟨ya, yb, hya, hyb, hgap⟩ :=
        placeLayer_gap pr ids PAD nY hnd.1 a b hab
      refine ⟨ya, yb, ?_, ?_, hgap⟩
      · simp only [List.foldl_cons]
        rw [assignYFold_get_notmem pr rest _ a (fun hc => hnd.2.2 ha hc)]
        exact hya
      · simp only [List.foldl_cons]
        rw [assignYFold_get_notmem pr rest _ b (fun hc => hnd.2.2 hb hc)]
        exact hyb
    · simp only [List.foldl_cons]
      exact ih _ hnd.2.1 h1

theorem posFoldInner_get (ids : List String) (xv : ℚ) (nodeY : SMap ℚ)
    (nm : SMap Node) (acc : SMap NodePos) (k : String) :
    (k ∈ ids →
      mapGet? (ids.foldl (fun acc2 nid => mapSet acc2 nid
          { x := xv, y := mapGetD nodeY nid PAD, w := NODE_W,
            h := getNodeHeight ((mapGet? nm nid).map Node.type) }) acc) k =
        some ⟨xv, mapGetD nodeY k PAD, NODE_W,
          getNodeHeight ((mapGet? nm k).map Node.type)⟩) ∧
    (k ∉ ids →
      mapGet? (ids.foldl (fun acc2 nid => mapSet acc2 nid
          { x := xv, y := mapGetD nodeY nid PAD, w := NODE_W,
            h := getNodeHeight ((mapGet? nm nid).map Node.type) }) acc) k =
        mapGet? acc k) := by
  induction ids generalizing acc with
  | nil => exact ⟨fun h => by simp at h, fun _ => rfl⟩
  | cons nid rest ih =>
    constructor
    · intro h
      simp only [List.foldl_cons]
      by_cases hr : k ∈ rest
      · exact (ih _).1 hr
      · rcases List.mem_cons.1 h with h1 | h1
        · subst h1
          rw [(ih _).2 hr, mapGet?_mapSet_self]
        · exact absurd h1 hr
    · intro h
      simp only [List.mem_cons] at h
      push_neg at h
      simp only [List.foldl_cons]
      rw [(ih _).2 h.2, mapGet?_mapSet_ne _ _ _ _ (Ne.symm h.1)]

theorem posFold_get (ln2 : List (Nat × List String)) (layerX : List ℚ)
    (nodeY : SMap ℚ) (nm : SMap Node) (acc : SMap NodePos) (k : String) :
    (k ∉ (ln2.map Prod.snd).flatten →
      mapGet? (ln2.foldl (fun acc2 q => q.2.foldl (fun acc3 nid =>
          mapSet acc3 nid
            { x := layerX.getD q.1 0, y := mapGetD nodeY nid PAD, w := NODE_W,
              h := getNodeHeight ((mapGet? nm nid).map Node.type) }) acc2)
          acc) k = mapGet? acc k) ∧
    (k ∈ (ln2.map Prod.snd).flatten →
      ∃ p, mapGet? (ln2.foldl (fun acc2 q => q.2.foldl (fun acc3 nid =>
          mapSet acc3 nid
            { x := layerX.getD q.1 0, y := mapGetD nodeY nid PAD, w := NODE_W,
              h := getNodeHeight ((mapGet? nm nid).map Node.type) }) acc2)
          acc) k = some p ∧ p.y = mapGetD nodeY k PAD) := by
  induction ln2 generalizing acc with
  | nil => exact ⟨fun _ => rfl, fun h => by simp at h⟩
  | cons q rest ih =>
    constructor
    · intro h
      simp only [List.map_cons, List.flatten_cons, List.mem_append] at h
      push_neg at h
      simp only [List.foldl_cons]
      rw [(ih _).1 h.2]
      exact (posFoldInner_get q.2 (layerX.getD q.1 0) nodeY nm acc k).2 h.1
    · intro h
      simp only [List.map_cons, List.flatten_cons, List.mem_append] at h
      simp only [List.foldl_cons]
      by_cases hr : k ∈ (rest.map Prod.snd).flatten
      · exact (ih _).2 hr
      · rcases h with h1 | h1
        · refine ⟨⟨layerX.getD q.1 0, mapGetD nodeY k PAD, NODE_W,
            getNodeHeight ((mapGet? nm k).map Node.type)⟩, ?_, rfl⟩
          rw [(ih _).1 hr]
          exact (posFoldInner_get q.2 (layerX.getD q.1 0) nodeY nm acc k).1 h1
        · exact absurd h1 hr

theorem positionsOf_get (g : Graph) (k : String) (h : k ∈ (lnOf g).flatten) :
    ∃ p, mapGet? (positionsOf g) k = some p ∧ p.y = mapGetD (yBOf g) k PAD := by
  unfold positionsOf buildPositions
  have := (posFold_get (lnOf g).enum (layerXOf (lnOf g)) (yBOf g)
    (mapOfList (g.nodes.map (fun n => (n.id, n)))) [] k).2
  rw [List.enum_map_snd] at this
  exact this h

/-- C10: the backward (bottom-up) y-refinement pass changes no node's
y-coordinate: its pull-up branch is empty and the other branch can only
raise a y that is already at least `PAD`, so the refined map equals the map
produced by the top-down pass alone, and the final position map is the one
built from the top-down pass. -/
theorem refine_pass_is_identity (g : Graph) :
    refineAll (succOf g) (maxLayerOf g) (lnOf g) (yAOf g) = yAOf g ∧
    positionsOf g = buildPositions (mapOfList (g.nodes.map (fun n => (n.id, n))))
      (lnOf g) (layerXOf (lnOf g)) (yAOf g) := by
  have h1 : yBOf g = yAOf g := yB_eq_yA g
  exact ⟨h1, by unfold positionsOf; rw [h1]⟩

theorem refine_pass_is_identity_witness :
    refineAll (succOf ⟨[⟨"A","op"⟩,⟨"B","op"⟩,⟨"C","op"⟩,⟨"D","op"⟩],
        [⟨"A","B"⟩,⟨"A","C"⟩,⟨"B","D"⟩,⟨"C","D"⟩]⟩)
      (maxLayerOf ⟨[⟨"A","op"⟩,⟨"B","op"⟩,⟨"C","op"⟩,⟨"D","op"⟩],
        [⟨"A","B"⟩,⟨"A","C"⟩,⟨"B","D"⟩,⟨"C","D"⟩]⟩)
      (lnOf ⟨[⟨"A","op"⟩,⟨"B","op"⟩,⟨"C","op"⟩,⟨"D","op"⟩],
        [⟨"A","B"⟩,⟨"A","C"⟩,⟨"B","D"⟩,⟨"C","D"⟩]⟩)
      (yAOf ⟨[⟨"A","op"⟩,⟨"B","op"⟩,⟨"C","op"⟩,⟨"D","op"⟩],
        [⟨"A","B"⟩,⟨"A","C"⟩,⟨"B","D"⟩,⟨"C","D"⟩]⟩) =
      yAOf ⟨[⟨"A","op"⟩,⟨"B","op"⟩,⟨"C","op"⟩,⟨"D","op"⟩],
        [⟨"A","B"⟩,⟨"A","C"⟩,⟨"B","D"⟩,⟨"C","D"⟩]⟩ ∧
    positionsOf ⟨[⟨"A","op"⟩,⟨"B","op"⟩,⟨"C","op"⟩,⟨"D","op"⟩],
        [⟨"A","B"⟩,⟨"A","C"⟩,⟨"B","D"⟩,⟨"C","D"⟩]⟩ =
      buildPositions (mapOfList (([⟨"A","op"⟩,⟨"B","op"⟩,⟨"C","op"⟩,⟨"D","op"⟩] :
          List Node).map (fun n => (n.id, n))))
        (lnOf ⟨[⟨"A","op"⟩,⟨"B","op"⟩,⟨"C","op"⟩,⟨"D","op"⟩],
          [⟨"A","B"⟩,⟨"A","C"⟩,⟨"B","D"⟩,⟨"C","D"⟩]⟩)
        (layerXOf (lnOf ⟨[⟨"A","op"⟩,⟨"B","op"⟩,⟨"C","op"⟩,⟨"D","op"⟩],
          [⟨"A","B"⟩,⟨"A","C"⟩,⟨"B","D"⟩,⟨"C","D"⟩]⟩))
        (yAOf ⟨[⟨"A","op"⟩,⟨"B","op"⟩,⟨"C","op"⟩,⟨"D","op"⟩],
          [⟨"A","B"⟩,⟨"A","C"⟩,⟨"B","D"⟩,⟨"C","D"⟩]⟩) :=
  refine_pass_is_identity ⟨[⟨"A","op"⟩,⟨"B","op"⟩,⟨"C","op"⟩,⟨"D","op"⟩],
    [⟨"A","B"⟩,⟨"A","C"⟩,⟨"B","D"⟩,⟨"C","D"⟩]⟩

/-- C3: in the final output, any two nodes placed consecutively within a
layer have y-coordinates at least `V_STEP` apart (the later one is at least
`V_STEP` below the earlier one, by the cursor construction of the top-down
pass). -/
theorem consecutive_vertical_gap (g : Graph) :
    ∀ ids ∈ (computeLayout g).layerNodes, ∀ a b, (a, b) ∈ ids.zip ids.tail →
    ∃ pa pb, mapGet? (computeLayout g).positions a = some pa ∧
      mapGet? (computeLayout g).positions b = some pb ∧
      pa.y + V_STEP ≤ pb.y := by
  intro ids hids a b hab
  by_cases hg : g.nodes = []
  · rw [show (computeLayout g).layerNodes = [] by
      simp [computeLayout, hg]] at hids
    simp at hids
  · have hcl : (computeLayout g).layerNodes = lnOf g := by
      simp [computeLayout, hg]
    have hcp : (computeLayout g).positions = positionsOf g := by
      simp [computeLayout, hg]
    rw [hcl] at hids
    rw [hcp]
    have ha : a ∈ ids := (List.of_mem_zip hab).1
    have hb : b ∈ ids := List.mem_of_mem_tail (List.of_mem_zip hab).2
    have haf : a ∈ (lnOf g).flatten := List.mem_flatten.2 ⟨ids, hids, ha⟩
    have hbf : b ∈ (lnOf g).flatten := List.mem_flatten.2 ⟨ids, hids, hb⟩
    obtain ⟨ya, yb, hya, hyb, hgap⟩ := assignY_gap (predOf g) (lnOf g)
      (lnOf_flatten_nodup g) ids hids a b hab
    obtain ⟨pa, hpa, hpay⟩ := positionsOf_get g a haf
    obtain ⟨pb, hpb, hpby⟩ := positionsOf_get g b hbf
    refine ⟨pa, pb, hpa, hpb, ?_⟩
    have hya2 : mapGet? (yAOf g) a = some ya := hya
    have hyb2 : mapGet? (yAOf g) b = some yb := hyb
    rw [hpay, hpby, yB_eq_yA g]
    unfold mapGetD
    rw [hya2, hyb2]
    exact hgap

theorem consecutive_vertical_gap_witness :
    ∃ pa pb,
      mapGet? (computeLayout ⟨[⟨"A","op"⟩, ⟨"B","op"⟩], []⟩).positions "A"
        = some pa ∧
      mapGet? (computeLayout ⟨[⟨"A","op"⟩, ⟨"B","op"⟩], []⟩).positions "B"
        = some pb ∧ pa.y + V_STEP ≤ pb.y :=
  consecutive_vertical_gap ⟨[⟨"A","op"⟩, ⟨"B","op"⟩], []⟩ ["A", "B"]
    (by decide) "A" "B" (by decide)

/-! ### Canvas size and completeness of the position map -/

theorem foldl_max_init_le (rest : List ℚ) (a : ℚ) : a ≤ rest.foldl max a := by
  induction rest generalizing a with
  | nil => exact le_rfl
  | cons b r ih => exact (le_max_left a b).trans (ih (max a b))

theorem le_qMaxList (l : List ℚ) (x : ℚ) (h : x ∈ l) : x ≤ qMaxList l := by
  cases l with
  | nil => simp at h
  | cons a rest =>
    unfold qMaxList
    rcases List.mem_cons.1 h with h1 | h1
    · subst h1; exact foldl_max_init_le rest x
    · clear h
      induction rest generalizing a with
      | nil => simp at h1
      | cons b r ih =>
        rcases List.mem_cons.1 h1 with h2 | h2
        · subst h2
          exact (le_max_right a x).trans (foldl_max_init_le r (max a x))
        · exact ih (max a b) h2

theorem foldl_max_mem (rest : List ℚ) (a : ℚ) : rest.foldl max a ∈ a :: rest := by
  induction rest generalizing a with
  | nil => simp
  | cons b r ih =>
    simp only [List.foldl_cons]
    rcases List.mem_cons.1 (ih (max a b)) with h1 | h1
    · rcases max_choice a b with h2 | h2
      · exact List.mem_cons.2 (Or.inl (h1.trans h2))
      · exact List.mem_cons.2 (Or.inr (List.mem_cons.2 (Or.inl (h1.trans h2))))
    · exact List.mem_cons.2 (Or.inr (List.mem_cons.2 (Or.inr h1)))

theorem qMaxList_mem (l : List ℚ) (h : l ≠ []) : qMaxList l ∈ l := by
  cases l with
  | nil => exact absurd rfl h
  | cons a rest => exact foldl_max_mem rest a

theorem positionsOf_has (g : Graph) (n : Node) (h : n ∈ g.nodes) :
    mapHas (positionsOf g) n.id = true := by
  have h1 : n.id ∈ (layerMapOf g).map Prod.fst :=
    ((layerMap_keys g).2 n.id).2 (List.mem_map.2 ⟨n, h, rfl⟩)
  have h2 : n.id ∈ (lnOf g).flatten := (lnOf_flatten_perm g).mem_iff.2 h1
  obtain ⟨p, hp, _⟩ := positionsOf_get g n.id h2
  simp [mapHas, hp]

/-- C4: for every non-empty graph, `canvasW = 2*PAD + (maxLayer+1)*H_STEP`
and `canvasH = PAD + max(y + h)` over all placed nodes (the maximum is
attained by some entry of the position map and bounds all of them). -/
theorem canvas_formula (g : Graph) (h : g.nodes ≠ []) :
    (computeLayout g).canvasW =
      some (2 * PAD + ((maxLayerOf g : ℚ) + 1) * H_STEP) ∧
    ∃ H, (computeLayout g).canvasH = some H ∧
      (∀ q ∈ (computeLayout g).positions, q.2.y + q.2.h + PAD ≤ H) ∧
      (∃ q ∈ (computeLayout g).positions, H = q.2.y + q.2.h + PAD) := by
  have hW : (computeLayout g).canvasW =
      some (PAD * 2 + ((maxLayerOf g : ℚ) + 1) * H_STEP) := by
    simp [computeLayout, h]
  have hH : (computeLayout g).canvasH =
      some (qMaxList ((positionsOf g).map (fun p => p.2.y + p.2.h)) + PAD) := by
    simp [computeLayout, h]
  have hP : (computeLayout g).positions = positionsOf g := by
    simp [computeLayout, h]
  constructor
  · rw [hW]
    congr 1
    ring
  · refine ⟨qMaxList ((positionsOf g).map (fun p => p.2.y + p.2.h)) + PAD,
      hH, ?_, ?_⟩
    · intro q hq
      rw [hP] at hq
      have : q.2.y + q.2.h ∈ (positionsOf g).map (fun p => p.2.y + p.2.h) :=
        List.mem_map.2 ⟨q, hq, rfl⟩
      have := le_qMaxList _ _ this
      linarith
    · have hne : positionsOf g ≠ [] := by
        cases hn : g.nodes with
        | nil => exact absurd hn h
        | cons n0 rest =>
          intro hc
          have := positionsOf_has g n0 (by rw [hn]; simp)
          rw [hc] at this
          simp [mapHas, mapGet?] at this
      have hmem := qMaxList_mem ((positionsOf g).map (fun p => p.2.y + p.2.h))
        (by simpa using hne)
      rcases List.mem_map.1 hmem with ⟨q, hq, hval⟩
      rw [hP]
      exact ⟨q, hq, by rw [← hval]⟩

theorem canvas_formula_witness :
    (computeLayout ⟨[⟨"A","op"⟩, ⟨"B","op"⟩], []⟩).canvasW =
      some (2 * PAD + ((maxLayerOf ⟨[⟨"A","op"⟩, ⟨"B","op"⟩], []⟩ : ℚ) + 1)
        * H_STEP) ∧
    ∃ H, (computeLayout ⟨[⟨"A","op"⟩, ⟨"B","op"⟩], []⟩).canvasH = some H ∧
      (∀ q ∈ (computeLayout ⟨[⟨"A","op"⟩, ⟨"B","op"⟩], []⟩).positions,
        q.2.y + q.2.h + PAD ≤ H) ∧
      (∃ q ∈ (computeLayout ⟨[⟨"A","op"⟩, ⟨"B","op"⟩], []⟩).positions,
        H = q.2.y + q.2.h + PAD) :=
  canvas_formula ⟨[⟨"A","op"⟩, ⟨"B","op"⟩], []⟩ (by decide)

theorem foldSet_keys {β : Type} (f : String → β) (ids : List String)
    (acc : SMap β) (hnd : ids.Nodup)
    (hfresh : ∀ i ∈ ids, i ∉ acc.map Prod.fst) :
    ((ids.foldl (fun a i => mapSet a i (f i)) acc).map Prod.fst) =
      acc.map Prod.fst ++ ids := by
  induction ids generalizing acc with
  | nil => simp
  | cons i rest ih =>
    simp only [List.foldl_cons]
    rw [ih (mapSet acc i (f i)) (List.nodup_cons.1 hnd).2 ?_]
    · rw [mapSet_of_not_mem acc i (f i) (hfresh i (by simp))]
      simp
    · intro j hj
      intro hc
      rcases (mem_keys_mapSet acc i j (f i)).1 hc with h1 | h1
      · exact hfresh j (by simp [hj]) h1
      · subst h1
        exact (List.nodup_cons.1 hnd).1 hj

theorem posFold_keys (ln2 : List (Nat × List String)) (layerX : List ℚ)
    (nodeY : SMap ℚ) (nm : SMap Node) (acc : SMap NodePos)
    (hnd : ((ln2.map Prod.snd).flatten).Nodup)
    (hfresh : ∀ k ∈ (ln2.map Prod.snd).flatten, k ∉ acc.map Prod.fst) :
    ((ln2.foldl (fun acc2 q => q.2.foldl (fun acc3 nid =>
        mapSet acc3 nid
          { x := layerX.getD q.1 0, y := mapGetD nodeY nid PAD, w := NODE_W,
            h := getNodeHeight ((mapGet? nm nid).map Node.type) }) acc2)
        acc).map Prod.fst) = acc.map Prod.fst ++ (ln2.map Prod.snd).flatten := by
  induction ln2 generalizing acc with
  | nil => simp
  | cons q rest ih =>
    simp only [List.map_cons, List.flatten_cons] at hnd hfresh ⊢
    rw [List.nodup_append] at hnd
    simp only [List.foldl_cons]
    have hinner := foldSet_keys
      (fun nid => (⟨layerX.getD q.1 0, mapGetD nodeY nid PAD, NODE_W,
        getNodeHeight ((mapGet? nm nid).map Node.type)⟩ : NodePos))
      q.2 acc hnd.1 (fun i hi => hfresh i (by simp [hi]))
    rw [ih _ hnd.2.1 ?_]
    · rw [hinner, List.append_assoc]
    · intro k hk
      rw [hinner]
      simp only [List.mem_append]
      push_neg
      exact ⟨fun hc => hfresh k (by simp [hk]) hc, fun hc => hnd.2.2 hc hk⟩

theorem positionsOf_keys (g : Graph) :
    (positionsOf g).map Prod.fst = (lnOf g).flatten := by
  unfold positionsOf buildPositions
  have := posFold_keys (lnOf g).enum (layerXOf (lnOf g)) (yBOf g)
    (mapOfList (g.nodes.map (fun n => (n.id, n)))) []
    (by rw [List.enum_map_snd]; exact lnOf_flatten_nodup g)
    (by intro k _; simp)
  rw [List.enum_map_snd] at this
  simpa using this

/-- C5: for pairwise-distinct node ids (acyclic or not), the returned
position map contains exactly one entry per input node: its key list is a
permutation of the node id list and has no duplicates. -/
theorem positions_exactly_one_entry (g : Graph)
    (hnd : (g.nodes.map Node.id).Nodup) :
    List.Perm ((computeLayout g).positions.map Prod.fst) (g.nodes.map Node.id) ∧
    ((computeLayout g).positions.map Prod.fst).Nodup := by
  by_cases hg : g.nodes = []
  · have : (computeLayout g).positions = [] := by simp [computeLayout, hg]
    rw [this, hg]
    exact ⟨List.Perm.refl _, by simp⟩
  · have hP : (computeLayout g).positions = positionsOf g := by
      simp [computeLayout, hg]
    rw [hP, positionsOf_keys g]
    have hperm : List.Perm (lnOf g).flatten (g.nodes.map Node.id) := by
      refine (lnOf_flatten_perm g).trans ?_
      refine (List.perm_ext_iff_of_nodup (layerMap_keys g).1 hnd).2 ?_
      exact (layerMap_keys g).2
    exact ⟨hperm, lnOf_flatten_nodup g⟩

theorem positions_exactly_one_entry_witness :
    List.Perm ((computeLayout ⟨[⟨"A","op"⟩,⟨"B","op"⟩,⟨"C","op"⟩],
        [⟨"A","B"⟩,⟨"C","B"⟩,⟨"B","C"⟩]⟩).positions.map Prod.fst)
      (([⟨"A","op"⟩,⟨"B","op"⟩,⟨"C","op"⟩] : List Node).map Node.id) ∧
    ((computeLayout ⟨[⟨"A","op"⟩,⟨"B","op"⟩,⟨"C","op"⟩],
        [⟨"A","B"⟩,⟨"C","B"⟩,⟨"B","C"⟩]⟩).positions.map Prod.fst).Nodup :=
  positions_exactly_one_entry ⟨[⟨"A","op"⟩,⟨"B","op"⟩,⟨"C","op"⟩],
    [⟨"A","B"⟩,⟨"C","B"⟩,⟨"B","C"⟩]⟩ (by decide)

/-- C8 counterexample: in the cyclic graph with edges A→B, C→B, B→C, node
"B" never reaches in-degree 0 during the traversal (its final in-degree is
1), yet its final layer is the partially-propagated value 1 — not the
claimed fallback 0. -/
theorem cycle_partial_layer_counterexample :
    mapGet? (kahnOf ⟨[⟨"A","op"⟩,⟨"B","op"⟩,⟨"C","op"⟩],
      [⟨"A","B"⟩,⟨"C","B"⟩,⟨"B","C"⟩]⟩).2 "B" = some 1 ∧
    mapGet? (layerMapOf ⟨[⟨"A","op"⟩,⟨"B","op"⟩,⟨"C","op"⟩],
      [⟨"A","B"⟩,⟨"C","B"⟩,⟨"B","C"⟩]⟩) "B" = some 1 :=
  ⟨by decide, by decide⟩

/-- C8 (amended): on any input (cyclic included) the pipeline is total and
produces a position for every node; a node that the traversal never
assigned any layer receives the fallback layer 0.  (A cycle node that
received a partial layer proposal from a processed predecessor keeps that
positive layer instead — see the counterexample.) -/
theorem cycle_fallback_layer (g : Graph) :
    (∀ n ∈ g.nodes, ¬ mapHas (kahnOf g).1 n.id = true →
      mapGet? (layerMapOf g) n.id = some 0) ∧
    (∀ n ∈ g.nodes, mapHas (computeLayout g).positions n.id = true) := by
  constructor
  · intro n hn hhas
    exact withFallback_get_zero (kahnOf g).1 g.nodes n hn hhas
  · intro n hn
    have hg : g.nodes ≠ [] := by
      intro hc; rw [hc] at hn; simp at hn
    have hP : (computeLayout g).positions = positionsOf g := by
      simp [computeLayout, hg]
    rw [hP]
    exact positionsOf_has g n hn

theorem cycle_fallback_layer_witness :
    mapGet? (layerMapOf ⟨[⟨"A","op"⟩,⟨"B","op"⟩],
      [⟨"A","B"⟩,⟨"B","A"⟩]⟩) "B" = some 0 ∧
    mapHas (computeLayout ⟨[⟨"A","op"⟩,⟨"B","op"⟩],
      [⟨"A","B"⟩,⟨"B","A"⟩]⟩).positions "B" = true :=
  ⟨(cycle_fallback_layer ⟨[⟨"A","op"⟩,⟨"B","op"⟩], [⟨"A","B"⟩,⟨"B","A"⟩]⟩).1
      ⟨"B","op"⟩ (by decide) (by decide),
    (cycle_fallback_layer ⟨[⟨"A","op"⟩,⟨"B","op"⟩], [⟨"A","B"⟩,⟨"B","A"⟩]⟩).2
      ⟨"B","op"⟩ (by decide)⟩

/-! ### The barycenter sweeps: no-neighbor rule, ordering, stability -/

theorem pair_sublist_of_mem (l : List String) (a b : String) (hne : a ≠ b)
    (ha : a ∈ l) (hb : b ∈ l) :
    List.Sublist [a, b] l ∨ List.Sublist [b, a] l := by
  induction l with
  | nil => simp at ha
  | cons x rest ih =>
    by_cases hxa : x = a
    · subst hxa
      have hbr : b ∈ rest := by
        rcases List.mem_cons.1 hb with h1 | h1
        · exact absurd h1.symm hne
        · exact h1
      exact Or.inl (List.Sublist.cons₂ x (List.singleton_sublist.2 hbr))
    · by_cases hxb : x = b
      · subst hxb
        have har : a ∈ rest := by
          rcases List.mem_cons.1 ha with h1 | h1
          · exact absurd h1.symm hxa
          · exact h1
        exact Or.inr (List.Sublist.cons₂ x (List.singleton_sublist.2 har))
      · have har : a ∈ rest := by
          rcases List.mem_cons.1 ha with h1 | h1
          · exact absurd h1.symm hxa
          · exact h1
        have hbr : b ∈ rest := by
          rcases List.mem_cons.1 hb with h1 | h1
          · exact absurd h1.symm hxb
          · exact h1
        rcases ih har hbr with h1 | h1
        · exact Or.inl (List.Sublist.cons x h1)
        · exact Or.inr (List.Sublist.cons x h1)

/-- C9: in every barycenter sweep, (i) a node with no neighbors present in
the relevant adjacent layer receives barycenter `⊤` (`Infinity`), (ii) such
a node sorts after every node with a finite barycenter, and (iii) any two
nodes with equal barycenters — including two `⊤` nodes — keep their
relative order from before the sweep (the sort is stable). -/
theorem barycenter_sweep_rules (adj : SMap (List String)) (pm : SMap ℚ)
    (ids : List String) (hnd : ids.Nodup) (a b : String) :
    ((mapGetD adj a []).filter (fun p => mapHas pm p) = [] →
      baryKey adj pm a = ⊤) ∧
    (a ∈ ids → b ∈ ids → baryKey adj pm a ≠ ⊤ → baryKey adj pm b = ⊤ →
      List.Sublist [a, b] (sortLayer adj pm ids)) ∧
    (baryKey adj pm a = baryKey adj pm b → List.Sublist [a, b] ids →
      List.Sublist [a, b] (sortLayer adj pm ids)) := by
  refine ⟨?_, ?_, ?_⟩
  · intro hfil
    unfold baryKey
    by_cases hn : mapGetD adj a [] = []
    · simp [hn]
    · simp [hn, hfil]
  · intro ha hb hfin htop
    have hne : a ≠ b := fun hc => hfin (hc ▸ htop)
    have hperm : List.Perm
        (List.insertionSort
          (fun x y => baryKey adj pm x ≤ baryKey adj pm y) ids) ids :=
      List.perm_insertionSort _ _
    have hnd2 : (sortLayer adj pm ids).Nodup := hperm.symm.nodup hnd
    have ha2 : a ∈ sortLayer adj pm ids := hperm.mem_iff.2 ha
    have hb2 : b ∈ sortLayer adj pm ids := hperm.mem_iff.2 hb
    have hsorted : List.Pairwise
        (fun x y => baryKey adj pm x ≤ baryKey adj pm y)
        (sortLayer adj pm ids) := by
      haveI hto : IsTotal String
          (fun x y => baryKey adj pm x ≤ baryKey adj pm y) :=
        ⟨fun x y => le_total _ _⟩
      haveI htr : IsTrans String
          (fun x y => baryKey adj pm x ≤ baryKey adj pm y) :=
        ⟨fun x y z h1 h2 => le_trans h1 h2⟩
      exact List.sorted_insertionSort _ ids
    rcases pair_sublist_of_mem (sortLayer adj pm ids) a b hne ha2 hb2
      with h1 | h1
    · exact h1
    · exfalso
      have hba : baryKey adj pm b ≤ baryKey adj pm a :=
        (List.pairwise_cons.1 (hsorted.sublist h1)).1 a (by simp)
      rw [htop] at hba
      exact hfin (top_le_iff.1 hba)
  · intro heq hsub
    unfold sortLayer
    exact List.pair_sublist_insertionSort (le_of_eq heq) hsub

theorem barycenter_sweep_rules_witness :
    baryKey [("a", ["p"])] [("p", (0 : ℚ))] "b" = ⊤ ∧
    List.Sublist ["a", "b"]
      (sortLayer [("a", ["p"])] [("p", (0 : ℚ))] ["b", "a", "c"]) ∧
    List.Sublist ["b", "c"]
      (sortLayer [("a", ["p"])] [("p", (0 : ℚ))] ["b", "a", "c"]) :=
  ⟨(barycenter_sweep_rules [("a", ["p"])] [("p", (0 : ℚ))] ["b", "a", "c"]
      (by decide) "b" "c").1 (by decide),
    (barycenter_sweep_rules [("a", ["p"])] [("p", (0 : ℚ))] ["b", "a", "c"]
      (by decide) "a" "b").2.1 (by decide) (by decide) (by decide) (by decide),
    (barycenter_sweep_rules [("a", ["p"])] [("p", (0 : ℚ))] ["b", "a", "c"]
      (by decide) "b" "c").2.2 (by decide) (by decide)⟩

/-! ### Kahn correctness: counting tools -/

/-- Number of not-yet-processed incoming edge endpoints of `v` (the
processed set being `P`). -/
def unprocN (pr : SMap (List String)) (P : List String) (v : String) : Nat :=
  ((mapGetD pr v []).filter (fun p => decide (p ∉ P))).length

/-- `max(layer(p) + 1)` over a predecessor list, `0` when it is empty. -/
def foldMaxL (L : SMap Nat) (ps : List String) : Nat :=
  ps.foldr (fun p acc => max (mapGetD L p 0 + 1) acc) 0

theorem foldMaxL_le_iff (L : SMap Nat) (ps : List String) (n : Nat) :
    foldMaxL L ps ≤ n ↔ ∀ p ∈ ps, mapGetD L p 0 + 1 ≤ n := by
  induction ps with
  | nil => simp [foldMaxL]
  | cons q rest ih =>
    unfold foldMaxL at ih ⊢
    simp only [List.foldr_cons, max_le_iff, List.mem_cons]
    constructor
    · rintro ⟨h1, h2⟩ p (hp | hp)
      · subst hp; exact h1
      · exact ih.1 h2 p hp
    · intro h
      exact ⟨h q (Or.inl rfl), ih.2 (fun p hp => h p (Or.inr hp))⟩

theorem le_foldMaxL (L : SMap Nat) (ps : List String) (p : String)
    (hp : p ∈ ps) : mapGetD L p 0 + 1 ≤ foldMaxL L ps :=
  (foldMaxL_le_iff L ps (foldMaxL L ps)).1 le_rfl p hp

theorem foldMaxL_eq_zero_or (L : SMap Nat) (ps : List String) :
    foldMaxL L ps = 0 ∨ ∃ p ∈ ps, foldMaxL L ps = mapGetD L p 0 + 1 := by
  induction ps with
  | nil => exact Or.inl rfl
  | cons q rest ih =>
    unfold foldMaxL at ih ⊢
    simp only [List.foldr_cons]
    rcases max_choice (mapGetD L q 0 + 1) (rest.foldr
      (fun p acc => max (mapGetD L p 0 + 1) acc) 0) with h | h
    · exact Or.inr ⟨q, by simp, h⟩
    · rcases ih with h1 | h1
      · rw [h, h1]
        exact Or.inl rfl
      · rcases h1 with ⟨p, hp, hval⟩
        exact Or.inr ⟨p, by simp [hp], by rw [h, hval]⟩

theorem foldMaxL_congr (L1 L2 : SMap Nat) (ps : List String)
    (h : ∀ p ∈ ps, mapGet? L1 p = mapGet? L2 p) :
    foldMaxL L1 ps = foldMaxL L2 ps := by
  induction ps with
  | nil => rfl
  | cons q rest ih =>
    unfold foldMaxL at ih ⊢
    simp only [List.foldr_cons]
    rw [show mapGetD L1 q 0 = mapGetD L2 q 0 by
      unfold mapGetD; rw [h q (by simp)]]
    rw [ih (fun p hp => h p (by simp [hp]))]

theorem length_filter_ne_add_count (m : List String) (x : String) :
    (m.filter (fun p => decide (p ≠ x))).length + List.count x m = m.length := by
  induction m with
  | nil => rfl
  | cons a rest ih =>
    rw [List.filter_cons, List.count_cons]
    by_cases hax : a = x
    · subst hax
      rw [if_neg (by simp), if_pos (by simp)]
      simp only [List.length_cons]
      omega
    · rw [if_pos (show (decide (a ≠ x)) = true by
        simp only [decide_eq_true_eq, ne_eq]; exact hax)]
      rw [if_neg (show ¬ ((a == x) = true) by
        simp only [beq_iff_eq]; exact hax)]
      simp only [List.length_cons]
      omega

theorem unprocN_append_single (pr : SMap (List String)) (P : List String)
    (x v : String) (hx : x ∉ P) :
    unprocN pr (P ++ [x]) v =
      unprocN pr P v - List.count x (mapGetD pr v []) := by
  unfold unprocN
  have hsplit : (mapGetD pr v []).filter (fun p => decide (p ∉ P ++ [x])) =
      ((mapGetD pr v []).filter (fun p => decide (p ∉ P))).filter
        (fun p => decide (p ≠ x)) := by
    rw [List.filter_filter]
    apply List.filter_congr
    intro a _
    by_cases h1 : a ∈ P <;> by_cases h2 : a = x <;>
      simp [List.mem_append, h1, h2]
  rw [hsplit]
  have hcnt : List.count x ((mapGetD pr v []).filter
      (fun p => decide (p ∉ P))) = List.count x (mapGetD pr v []) := by
    rw [List.count_filter (by simp [hx])]
  have := length_filter_ne_add_count
    ((mapGetD pr v []).filter (fun p => decide (p ∉ P))) x
  omega

theorem count_le_unprocN (pr : SMap (List String)) (P : List String)
    (x v : String) (hx : x ∉ P) :
    List.count x (mapGetD pr v []) ≤ unprocN pr P v := by
  unfold unprocN
  calc List.count x (mapGetD pr v [])
      = List.count x ((mapGetD pr v []).filter (fun p => decide (p ∉ P))) :=
        (List.count_filter (by simp [hx])).symm
    _ ≤ _ := List.count_le_length _ _

theorem unprocN_nil (pr : SMap (List String)) (v : String) :
    unprocN pr [] v = (mapGetD pr v []).length := by
  unfold unprocN
  simp

theorem unprocN_eq_zero_iff (pr : SMap (List String)) (P : List String)
    (v : String) :
    unprocN pr P v = 0 ↔ ∀ p ∈ mapGetD pr v [], p ∈ P := by
  unfold unprocN
  rw [List.length_eq_zero, List.filter_eq_nil_iff]
  constructor
  · intro h p hp
    have := h p hp
    simp at this
    exact this
  · intro h p hp
    simp [h p hp]

theorem intSumNat_mapSet (m : SMap Int) (k : String) (v : Int) :
    intSumNat (mapSet m k v) + (mapGetD m k 0).toNat =
      intSumNat m + v.toNat := by
  induction m with
  | nil => simp [mapSet, intSumNat, mapGetD, mapGet?]
  | cons p rest ih =>
    obtain ⟨pk, pv⟩ := p
    by_cases hp : pk = k
    · subst hp
      simp [mapSet, intSumNat, mapGetD, mapGet?]
      omega
    · simp only [mapSet, if_neg hp, intSumNat, List.map_cons, List.sum_cons]
      have h2 : mapGetD ((pk, pv) :: rest) k 0 = mapGetD rest k 0 := by
        simp [mapGetD, mapGet?, hp]
      rw [h2]
      unfold intSumNat at ih
      omega

theorem kahnStep_measure (proposed : Nat) (succs : List String)
    (layer : SMap Nat) (inDeg : SMap Int) (enq : List String) :
    (kahnStep proposed succs layer inDeg enq).2.2.length +
        intSumNat (kahnStep proposed succs layer inDeg enq).2.1 ≤
      enq.length + intSumNat inDeg := by
  induction succs generalizing layer inDeg enq with
  | nil => exact le_rfl
  | cons w rest ih =>
    refine (ih _ _ _).trans ?_
    have hsum := intSumNat_mapSet inDeg w (mapGetD inDeg w 0 - 1)
    by_cases hd : mapGetD inDeg w 0 - 1 = 0
    · rw [if_pos hd]
      simp only [List.length_append, List.length_singleton]
      omega
    · rw [if_neg hd]
      omega

theorem predInit_getD (nodes : List Node) (v : String) :
    mapGetD (predInit nodes) v [] = [] := by
  unfold mapGetD
  cases hget : mapGet? (predInit nodes) v with
  | none => rfl
  | some l => simp [predInit_values_nil nodes v l hget]

theorem mapGetD_mapUpdate_present (m : SMap (List String)) (k : String)
    (f : List String → List String) (l : List String)
    (hnd : (m.map Prod.fst).Nodup) (h : mapGet? m k = some l) :
    mapGetD (mapUpdate m k f) k [] = f l := by
  unfold mapGetD
  rw [mapGet?_mapUpdate_self m k f hnd, h]
  rfl

theorem adjFold_count (edges : List Edge)
    (st : SMap (List String) × SMap (List String))
    (hnd1 : (st.1.map Prod.fst).Nodup) (hnd2 : (st.2.map Prod.fst).Nodup)
    (hc : ∀ u v, List.count u (mapGetD st.1 v []) =
      List.count v (mapGetD st.2 u [])) :
    ∀ u v, List.count u (mapGetD (edges.foldl adjStep st).1 v []) =
      List.count v (mapGetD (edges.foldl adjStep st).2 u []) := by
  induction edges generalizing st with
  | nil => exact hc
  | cons e rest ih =>
    simp only [List.foldl_cons]
    have hkeys : ((adjStep st e).1.map Prod.fst = st.1.map Prod.fst) ∧
        ((adjStep st e).2.map Prod.fst = st.2.map Prod.fst) := by
      unfold adjStep
      by_cases hcc : (mapHas st.1 e.target && mapHas st.2 e.source) = true
      · simp [hcc, keys_mapUpdate]
      · simp [hcc]
    apply ih (adjStep st e) (hkeys.1 ▸ hnd1) (hkeys.2 ▸ hnd2)
    intro u v
    unfold adjStep
    by_cases hcc : (mapHas st.1 e.target && mapHas st.2 e.source) = true
    · rw [if_pos hcc]
      rcases Option.isSome_iff_exists.1 (Bool.and_elim_left hcc) with ⟨lt, hlt⟩
      rcases Option.isSome_iff_exists.1 (Bool.and_elim_right hcc) with ⟨ls, hls⟩
      by_cases hv : e.target = v
      · subst hv
        rw [show mapGetD (mapUpdate st.1 e.target
            (fun l => l ++ [e.source])) e.target [] = lt ++ [e.source] from
          mapGetD_mapUpdate_present st.1 e.target _ lt hnd1 hlt]
        by_cases hu : e.source = u
        · subst hu
          rw [show mapGetD (mapUpdate st.2 e.source
              (fun l => l ++ [e.target])) e.source [] = ls ++ [e.target] from
            mapGetD_mapUpdate_present st.2 e.source _ ls hnd2 hls]
          have := hc e.source e.target
          rw [show mapGetD st.1 e.target [] = lt by
            unfold mapGetD; rw [hlt]; rfl] at this
          rw [show mapGetD st.2 e.source [] = ls by
            unfold mapGetD; rw [hls]; rfl] at this
          simp [List.count_append, this]
        · have hne2 : mapGetD (mapUpdate st.2 e.source
              (fun l => l ++ [e.target])) u [] = mapGetD st.2 u [] := by
            unfold mapGetD
            rw [mapGet?_mapUpdate_ne st.2 e.source u _ hu]
          rw [hne2]
          have := hc u e.target
          rw [show mapGetD st.1 e.target [] = lt by
            unfold mapGetD; rw [hlt]; rfl] at this
          rw [List.count_append, this]
          have hz : List.count u [e.source] = 0 := by
            simp [List.count_cons, hu]
          omega
      · have hne1 : mapGetD (mapUpdate st.1 e.target
            (fun l => l ++ [e.source])) v [] = mapGetD st.1 v [] := by
          unfold mapGetD
          rw [mapGet?_mapUpdate_ne st.1 e.target v _ hv]
        rw [hne1]
        by_cases hu : e.source = u
        · subst hu
          rw [show mapGetD (mapUpdate st.2 e.source
              (fun l => l ++ [e.target])) e.source [] = ls ++ [e.target] from
            mapGetD_mapUpdate_present st.2 e.source _ ls hnd2 hls]
          have := hc e.source v
          rw [show mapGetD st.2 e.source [] = ls by
            unfold mapGetD; rw [hls]; rfl] at this
          rw [List.count_append, this]
          have hz : List.count v [e.target] = 0 := by
            simp [List.count_cons, hv]
          omega
        · have hne2 : mapGetD (mapUpdate st.2 e.source
              (fun l => l ++ [e.target])) u [] = mapGetD st.2 u [] := by
            unfold mapGetD
            rw [mapGet?_mapUpdate_ne st.2 e.source u _ hu]
          rw [hne2]
          exact hc u v
    · rw [if_neg hcc]
      exact hc u v

theorem buildAdj_count (nodes : List Node) (edges : List Edge) :
    ∀ u v, List.count u (mapGetD (buildAdj nodes edges).1 v []) =
      List.count v (mapGetD (buildAdj nodes edges).2 u []) := by
  unfold buildAdj
  exact adjFold_count edges (predInit nodes, predInit nodes)
    (nodup_keys_mapOfList _) (nodup_keys_mapOfList _)
    (by intro u v; rw [predInit_getD, predInit_getD]; simp)

theorem adjFold_rank (rank : String → Nat) (edges : List Edge)
    (st : SMap (List String) × SMap (List String))
    (hnd1 : (st.1.map Prod.fst).Nodup)
    (hedges : ∀ e ∈ edges, rank e.source < rank e.target)
    (hinv : ∀ v p, p ∈ mapGetD st.1 v [] → rank p < rank v) :
    ∀ v p, p ∈ mapGetD (edges.foldl adjStep st).1 v [] → rank p < rank v := by
  induction edges generalizing st with
  | nil => exact hinv
  | cons e rest ih =>
    simp only [List.foldl_cons]
    have hkeys : ((adjStep st e).1.map Prod.fst = st.1.map Prod.fst) := by
      unfold adjStep
      by_cases hcc : (mapHas st.1 e.target && mapHas st.2 e.source) = true
      · simp [hcc, keys_mapUpdate]
      · simp [hcc]
    apply ih (adjStep st e) (hkeys ▸ hnd1)
      (fun e2 he2 => hedges e2 (by simp [he2]))
    intro v p hp
    unfold adjStep at hp
    by_cases hcc : (mapHas st.1 e.target && mapHas st.2 e.source) = true
    · rw [if_pos hcc] at hp
      rcases Option.isSome_iff_exists.1 (Bool.and_elim_left hcc) with ⟨lt, hlt⟩
      by_cases hv : e.target = v
      · subst hv
        rw [mapGetD_mapUpdate_present st.1 e.target _ lt hnd1 hlt] at hp
        rcases List.mem_append.1 hp with h1 | h1
        · exact hinv e.target p (by unfold mapGetD; rw [hlt]; exact h1)
        · rw [List.mem_singleton.1 h1]
          exact hedges e (by simp)
      · have hne1 : mapGetD (mapUpdate st.1 e.target
            (fun l => l ++ [e.source])) v [] = mapGetD st.1 v [] := by
          unfold mapGetD
          rw [mapGet?_mapUpdate_ne st.1 e.target v _ hv]
        rw [hne1] at hp
        exact hinv v p hp
    · rw [if_neg hcc] at hp
      exact hinv v p hp

theorem buildAdj_rank (rank : String → Nat) (nodes : List Node)
    (edges : List Edge) (hedges : ∀ e ∈ edges, rank e.source < rank e.target) :
    ∀ v p, p ∈ mapGetD (buildAdj nodes edges).1 v [] → rank p < rank v := by
  unfold buildAdj
  exact adjFold_rank rank edges (predInit nodes, predInit nodes)
    (nodup_keys_mapOfList _) hedges
    (by intro v p hp; rw [predInit_getD] at hp; simp at hp)

theorem mapGet?_mapOfList_nodes {β : Type} (nodes : List Node) (f : Node → β)
    (hnd : (nodes.map Node.id).Nodup) (n : Node) (hn : n ∈ nodes) :
    mapGet? (mapOfList (nodes.map (fun m => (m.id, f m)))) n.id = some (f n) := by
  rw [mapOfList_eq_self _ (by simp only [List.map_map]; simpa using hnd)]
  induction nodes with
  | nil => simp at hn
  | cons m rest ih =>
    simp only [List.map_cons, mapGet?]
    by_cases hm : m.id = n.id
    · have : n = m := by
        rcases List.mem_cons.1 hn with h1 | h1
        · exact h1
        · exfalso
          rw [List.map_cons, List.nodup_cons] at hnd
          exact hnd.1 (hm ▸ List.mem_map.2 ⟨n, h1, rfl⟩)
      subst this
      simp [hm]
    · rw [if_neg hm]
      rw [List.map_cons, List.nodup_cons] at hnd
      apply ih hnd.2
      rcases List.mem_cons.1 hn with h1 | h1
      · exact absurd (h1 ▸ rfl) hm
      · exact h1

theorem mapGet?_mapOfList_const {β : Type} (l : List String) (c : β)
    (hnd : l.Nodup) (v : String) (hv : v ∈ l) :
    mapGet? (mapOfList (l.map (fun x => (x, c)))) v = some c := by
  rw [mapOfList_eq_self _ (by
    rw [show (l.map (fun x => (x, c))).map Prod.fst = l from by
      rw [List.map_map]; exact List.map_id l]
    exact hnd)]
  induction l with
  | nil => simp at hv
  | cons x rest ih =>
    simp only [List.map_cons, mapGet?]
    by_cases hx : x = v
    · simp [hx]
    · rw [if_neg hx]
      rw [List.nodup_cons] at hnd
      apply ih hnd.2
      rcases List.mem_cons.1 hv with h1 | h1
      · exact absurd h1.symm hx
      · exact h1

theorem mapGet?_mapOfList_notmem {β : Type} (ps : List (String × β))
    (v : String) (hv : v ∉ ps.map Prod.fst) :
    mapGet? (mapOfList ps) v = none := by
  cases hget : mapGet? (mapOfList ps) v with
  | none => rfl
  | some l =>
    exfalso
    apply hv
    rw [← mem_keys_mapOfList]
    exact (mapGet?_isSome_iff _ _).1 (by simp [hget])

theorem withFallback_eq_self (L : SMap Nat) (nodes : List Node)
    (h : ∀ n ∈ nodes, mapHas L n.id = true) : withFallback L nodes = L := by
  unfold withFallback
  induction nodes with
  | nil => rfl
  | cons n rest ih =>
    simp only [List.foldl_cons]
    rw [if_pos (h n (by simp))]
    exact ih (fun m hm => h m (by simp [hm]))

/-! ### Kahn correctness: the loop invariant -/

theorem proposeLayer_get_ne (layer : SMap Nat) (w : String) (p : Nat)
    (v : String) (h : w ≠ v) :
    mapGet? (proposeLayer layer w p) v = mapGet? layer v := by
  cases hv : mapGet? layer w with
  | none => rw [proposeLayer_of_none _ _ _ hv, mapGet?_mapSet_ne _ _ _ _ h]
  | some lv =>
    by_cases hlt : lv < p
    · rw [proposeLayer_of_lt _ _ _ lv hv hlt, mapGet?_mapSet_ne _ _ _ _ h]
    · rw [proposeLayer_of_ge _ _ _ lv hv hlt]

/-- The invariant of the Kahn loop.  `P` is the list of processed ids,
`pending` the unprocessed part of the queue. -/
def KInv (ids : List String) (pr : SMap (List String))
    (P pending : List String) (layer : SMap Nat) (inDeg : SMap Int) : Prop :=
  ((P ++ pending).Nodup) ∧
  (∀ x ∈ P ++ pending, x ∈ ids) ∧
  (∀ v ∈ ids, mapGet? inDeg v = some ((unprocN pr P v : Int))) ∧
  (∀ v ∈ ids, (v ∈ P ++ pending ↔ unprocN pr P v = 0)) ∧
  (∀ v ∈ P ++ pending,
    mapGet? layer v = some (foldMaxL layer (mapGetD pr v []))) ∧
  (∀ v ∈ ids, v ∉ P ++ pending →
    mapGet? layer v =
      (if (mapGetD pr v []).filter (fun p => decide (p ∈ P)) = [] then none
       else some (foldMaxL layer
         ((mapGetD pr v []).filter (fun p => decide (p ∈ P))))))

/-- State description while the successors of the node being processed are
handled one by one; `S1` is the already-handled prefix of the successor
list, `pnr` the processed list plus the whole current queue, `layer0` the
layer map at the start of this node's processing and `cur` its layer. -/
def StepDesc (ids : List String) (pr : SMap (List String))
    (P pnr : List String) (cur : Nat) (layer0 : SMap Nat) (S1 : List String)
    (st : SMap Nat × SMap Int × List String) : Prop :=
  (∀ v ∈ ids, mapGet? st.2.1 v =
    some ((unprocN pr P v : Int) - List.count v S1)) ∧
  st.2.2.Nodup ∧
  (∀ v, v ∈ st.2.2 ↔ (v ∈ ids ∧ 1 ≤ unprocN pr P v ∧
    unprocN pr P v ≤ List.count v S1)) ∧
  (∀ v ∈ pnr, mapGet? st.1 v = mapGet? layer0 v) ∧
  (∀ v ∈ ids, v ∉ pnr →
    mapGet? st.1 v =
      (if List.count v S1 = 0 then
        (if (mapGetD pr v []).filter (fun p => decide (p ∈ P)) = [] then none
         else some (foldMaxL layer0
           ((mapGetD pr v []).filter (fun p => decide (p ∈ P)))))
       else some (max (foldMaxL layer0
           ((mapGetD pr v []).filter (fun p => decide (p ∈ P)))) (cur + 1))))

theorem count_singleton_ne (v w : String) (h : ¬ w = v) :
    List.count v [w] = 0 := by
  simp [List.count_cons, h]

theorem count_singleton_self (w : String) : List.count w [w] = 1 := by
  simp [List.count_cons]

theorem stepDesc_step (ids : List String) (pr : SMap (List String))
    (P pnr : List String) (cur : Nat) (layer0 : SMap Nat) (S1 : List String)
    (layer : SMap Nat) (inDeg : SMap Int) (enq : List String) (w : String)
    (hw1 : w ∈ ids) (hw3 : w ∉ pnr)
    (hd : StepDesc ids pr P pnr cur layer0 S1 (layer, inDeg, enq)) :
    StepDesc ids pr P pnr cur layer0 (S1 ++ [w])
      (proposeLayer layer w (cur + 1),
        mapSet inDeg w (mapGetD inDeg w 0 - 1),
        if mapGetD inDeg w 0 - 1 = 0 then enq ++ [w] else enq) := by
  obtain ⟨hA, hBnd, hB, hC, hD⟩ := hd
  have hgdw : mapGetD inDeg w 0 =
      (unprocN pr P w : Int) - List.count w S1 := by
    unfold mapGetD
    rw [hA w hw1]
    rfl
  refine ⟨?_, ?_, ?_, ?_, ?_⟩
  · -- in-degrees
    intro v hv
    by_cases hvw : w = v
    · subst hvw
      rw [mapGet?_mapSet_self, hgdw, List.count_append, count_singleton_self]
      congr 1
      push_cast
      ring
    · rw [mapGet?_mapSet_ne _ _ _ _ hvw, hA v hv, List.count_append,
        count_singleton_ne v w hvw, Nat.add_zero]
  · -- enqueued list has no duplicates
    by_cases hd0 : mapGetD inDeg w 0 - 1 = 0
    · rw [if_pos hd0]
      rw [hgdw] at hd0
      have hu : unprocN pr P w = List.count w S1 + 1 := by omega
      have hwe : w ∉ enq := by
        intro hc
        have := ((hB w).1 hc).2.2
        omega
      simp [List.nodup_append, hBnd, hwe]
    · rw [if_neg hd0]
      exact hBnd
  · -- enqueued list membership
    intro v
    by_cases hvw : v = w
    · subst hvw
      rw [List.count_append, count_singleton_self]
      by_cases hd0 : mapGetD inDeg v 0 - 1 = 0
      · rw [if_pos hd0]
        rw [hgdw] at hd0
        have hu : unprocN pr P v = List.count v S1 + 1 := by omega
        simp only [List.mem_append, List.mem_singleton]
        constructor
        · intro _
          exact ⟨hw1, by omega, by omega⟩
        · intro _
          exact Or.inr trivial
      · rw [if_neg hd0]
        rw [hgdw] at hd0
        have hu : unprocN pr P v ≠ List.count v S1 + 1 := by omega
        rw [hB v]
        constructor <;> rintro ⟨h1, h2, h3⟩ <;> exact ⟨h1, h2, by omega⟩
    · have hz : List.count v (S1 ++ [w]) = List.count v S1 := by
        rw [List.count_append, count_singleton_ne v w (fun hc => hvw hc.symm),
          Nat.add_zero]
      rw [hz]
      by_cases hd0 : mapGetD inDeg w 0 - 1 = 0
      · rw [if_pos hd0]
        simp only [List.mem_append, List.mem_singleton]
        rw [← hB v]
        constructor
        · rintro (h1 | h1)
          · exact h1
          · exact absurd h1 hvw
        · intro h1
          exact Or.inl h1
      · rw [if_neg hd0]
        exact hB v
  · -- layer values of processed and queued nodes are untouched
    intro v hv
    have hne : w ≠ v := fun hc => hw3 (hc ▸ hv)
    rw [proposeLayer_get_ne layer w (cur + 1) v hne]
    exact hC v hv
  · -- layer values of the remaining nodes
    intro v hv hvnp
    by_cases hvw : w = v
    · subst hvw
      have hcur := hD w hw1 hvnp
      rw [List.count_append, count_singleton_self]
      rw [if_neg (show ¬ (List.count w S1 + 1 = 0) by omega)]
      by_cases hc0 : List.count w S1 = 0
      · rw [if_pos hc0] at hcur
        by_cases hpp : (mapGetD pr w []).filter (fun p => decide (p ∈ P)) = []
        · rw [if_pos hpp] at hcur
          rw [proposeLayer_of_none layer w (cur + 1) hcur,
            mapGet?_mapSet_self, hpp]
          have : foldMaxL layer0 [] = 0 := rfl
          rw [this, Nat.max_eq_right (Nat.zero_le _)]
        · rw [if_neg hpp] at hcur
          by_cases hlt : foldMaxL layer0
              ((mapGetD pr w []).filter (fun p => decide (p ∈ P))) < cur + 1
          · rw [proposeLayer_of_lt layer w (cur + 1) _ hcur hlt,
              mapGet?_mapSet_self]
            rw [Nat.max_eq_right (Nat.le_of_lt hlt)]
          · rw [proposeLayer_of_ge layer w (cur + 1) _ hcur hlt]
            rw [hcur]
            rw [Nat.max_eq_left (Nat.le_of_not_lt hlt)]
      · rw [if_neg hc0] at hcur
        have hge : ¬ max (foldMaxL layer0
            ((mapGetD pr w []).filter (fun p => decide (p ∈ P)))) (cur + 1)
              < cur + 1 := by
          exact Nat.not_lt.2 (Nat.le_max_right _ _)
        rw [proposeLayer_of_ge layer w (cur + 1) _ hcur hge]
        exact hcur
    · rw [proposeLayer_get_ne layer w (cur + 1) v hvw]
      rw [List.count_append, count_singleton_ne v w hvw, Nat.add_zero]
      exact hD v hv hvnp

theorem kahnStep_spec (ids : List String) (pr : SMap (List String))
    (P pnr : List String) (cur : Nat) (layer0 : SMap Nat) :
    ∀ (S2 S1 : List String) (layer : SMap Nat) (inDeg : SMap Int)
      (enq : List String),
    (∀ w ∈ S2, w ∈ ids ∧ w ∉ pnr) →
    StepDesc ids pr P pnr cur layer0 S1 (layer, inDeg, enq) →
    StepDesc ids pr P pnr cur layer0 (S1 ++ S2)
      (kahnStep (cur + 1) S2 layer inDeg enq) := by
  intro S2
  induction S2 with
  | nil =>
    intro S1 layer inDeg enq _ hd
    simpa using hd
  | cons w rest ih =>
    intro S1 layer inDeg enq hS hd
    have hw := hS w (by simp)
    have hstep := stepDesc_step ids pr P pnr cur layer0 S1 layer inDeg enq w
      hw.1 hw.2 hd
    have hres := ih (S1 ++ [w]) _ _ _ (fun x hx => hS x (by simp [hx])) hstep
    have heq : S1 ++ w :: rest = (S1 ++ [w]) ++ rest := by simp
    rw [heq]
    exact hres

theorem foldMax_extend (layerNew layerOld : SMap Nat) (P : List String)
    (nid : String) (cur : Nat) (X pp : List String)
    (hmemX : ∀ p ∈ X, p ∈ P ∨ p = nid) (hnidX : nid ∈ X)
    (hvalP : ∀ p ∈ P, mapGet? layerNew p = mapGet? layerOld p)
    (hvalnid : mapGet? layerNew nid = some cur)
    (hppX : ∀ p ∈ pp, p ∈ X) (hppP : ∀ p ∈ pp, p ∈ P)
    (hXpp : ∀ p ∈ X, p ∈ P → p ∈ pp) :
    foldMaxL layerNew X = max (foldMaxL layerOld pp) (cur + 1) := by
  apply Nat.le_antisymm
  · rw [foldMaxL_le_iff]
    intro p hp
    rcases hmemX p hp with h1 | h1
    · have hv : mapGetD layerNew p 0 = mapGetD layerOld p 0 := by
        unfold mapGetD
        rw [hvalP p h1]
      rw [hv]
      exact le_trans (le_foldMaxL layerOld pp p (hXpp p hp h1)) (le_max_left _ _)
    · subst h1
      have hv : mapGetD layerNew p 0 = cur := by
        unfold mapGetD
        rw [hvalnid]
        rfl
      rw [hv]
      exact le_max_right _ _
  · apply max_le
    · rw [foldMaxL_le_iff]
      intro p hp
      have hv : mapGetD layerOld p 0 = mapGetD layerNew p 0 := by
        unfold mapGetD
        rw [hvalP p (hppP p hp)]
      rw [hv]
      exact le_foldMaxL layerNew X p (hppX p hp)
    · have hv : mapGetD layerNew nid 0 = cur := by
        unfold mapGetD
        rw [hvalnid]
        rfl
      calc cur + 1 = mapGetD layerNew nid 0 + 1 := by rw [hv]
        _ ≤ foldMaxL layerNew X := le_foldMaxL layerNew X nid hnidX

theorem kahnLoop_spec (ids : List String) (pr su : SMap (List String))
    (hcount : ∀ u v, List.count u (mapGetD pr v []) =
      List.count v (mapGetD su u []))
    (hsuccids : ∀ u x, x ∈ mapGetD su u [] → x ∈ ids) :
    ∀ (fuel : Nat) (P pending : List String) (layer : SMap Nat)
      (inDeg : SMap Int),
    pending.length + intSumNat inDeg < fuel →
    KInv ids pr P pending layer inDeg →
    ∃ Pf, KInv ids pr Pf []
        (kahnLoop su fuel pending layer inDeg).1
        (kahnLoop su fuel pending layer inDeg).2 ∧
      (∀ x ∈ P ++ pending, x ∈ Pf) := by
  intro fuel
  induction fuel with
  | zero =>
    intro P pending layer inDeg hm _
    exact absurd hm (Nat.not_lt_zero _)
  | succ f ih =>
    intro P pending layer inDeg hm hI
    cases pending with
    | nil =>
      exact ⟨P, hI, fun x hx => by simpa using hx⟩
    | cons nid rest =>
      obtain ⟨hN, hIds, hDeg, hZero, hLay, hOut⟩ := hI
      have hnidmem : nid ∈ P ++ nid :: rest := by simp
      have hnidid : nid ∈ ids := hIds nid hnidmem
      have hnidP : nid ∉ P := by
        have hd := List.nodup_append.1 hN
        exact fun hc => hd.2.2 hc (by simp)
      have hcurget : mapGet? layer nid =
          some (foldMaxL layer (mapGetD pr nid [])) := hLay nid hnidmem
      have hcurD : mapGetD layer nid 0 =
          foldMaxL layer (mapGetD pr nid []) := by
        unfold mapGetD
        rw [hcurget]
        rfl
      have hS : ∀ w ∈ mapGetD su nid [], w ∈ ids ∧ w ∉ P ++ nid :: rest := by
        intro w hw
        have hwid : w ∈ ids := hsuccids nid w hw
        have hcw : 0 < List.count w (mapGetD su nid []) :=
          List.count_pos_iff.2 hw
        have hcnw := hcount nid w
        have hule := count_le_unprocN pr P nid w hnidP
        refine ⟨hwid, fun hc => ?_⟩
        have hz := (hZero w hwid).1 hc
        omega
      have hdesc0 : StepDesc ids pr P (P ++ nid :: rest) (mapGetD layer nid 0)
          layer [] (layer, inDeg, []) := by
        refine ⟨?_, List.nodup_nil, ?_, fun v _ => rfl, ?_⟩
        · intro v hv
          rw [hDeg v hv]
          simp
        · intro v
          constructor
          · intro h
            exact absurd h (List.not_mem_nil v)
          · rintro ⟨_, h2, h3⟩
            rw [List.count_nil] at h3
            omega
        · intro v hv hvn
          rw [hOut v hv hvn]
          simp
      have hdesc := kahnStep_spec ids pr P (P ++ nid :: rest)
        (mapGetD layer nid 0) layer (mapGetD su nid []) [] layer inDeg []
        hS hdesc0
      rw [List.nil_append] at hdesc
      have hmeas := kahnStep_measure (mapGetD layer nid 0 + 1)
        (mapGetD su nid []) layer inDeg []
      have hkl : kahnLoop su (f + 1) (nid :: rest) layer inDeg =
          kahnLoop su f
            (rest ++ (kahnStep (mapGetD layer nid 0 + 1) (mapGetD su nid [])
              layer inDeg []).2.2)
            (kahnStep (mapGetD layer nid 0 + 1) (mapGetD su nid [])
              layer inDeg []).1
            (kahnStep (mapGetD layer nid 0 + 1) (mapGetD su nid [])
              layer inDeg []).2.1 := rfl
      rw [hkl]
      set s := kahnStep (mapGetD layer nid 0 + 1) (mapGetD su nid [])
        layer inDeg [] with hsdef
      obtain ⟨hA, hBnd, hB, hC, hD⟩ := hdesc
      have hmemE : ∀ x, x ∈ (P ++ [nid]) ++ (rest ++ s.2.2) ↔
          (x ∈ P ++ nid :: rest ∨ x ∈ s.2.2) := by
        intro x
        simp only [List.mem_append, List.mem_cons, List.mem_singleton,
          List.not_mem_nil, or_false]
        tauto
      have hvalP : ∀ p ∈ P, mapGet? s.1 p = mapGet? layer p :=
        fun p hp => hC p (List.mem_append_left _ hp)
      have hvalnid : mapGet? s.1 nid = some (mapGetD layer nid 0) := by
        rw [hC nid hnidmem, hcurget, hcurD]
      have hK' : KInv ids pr (P ++ [nid]) (rest ++ s.2.2) s.1 s.2.1 := by
        refine ⟨?_, ?_, ?_, ?_, ?_, ?_⟩
        · have hEeq : (P ++ [nid]) ++ (rest ++ s.2.2) =
              (P ++ nid :: rest) ++ s.2.2 := by simp
          rw [hEeq]
          refine List.nodup_append.2 ⟨hN, hBnd, ?_⟩
          intro a ha hae
          obtain ⟨haid, h1, h2⟩ := (hB a).1 hae
          have h0 := (hZero a haid).1 ha
          omega
        · intro x hx
          rcases (hmemE x).1 hx with h | h
          · exact hIds x h
          · exact ((hB x).1 h).1
        · intro v hv
          rw [hA v hv]
          have hu' := unprocN_append_single pr P nid v hnidP
          have hc1 := hcount nid v
          have hle := count_le_unprocN pr P nid v hnidP
          congr 1
          omega
        · intro v hv
          have hu' := unprocN_append_single pr P nid v hnidP
          have hc1 := hcount nid v
          have hle := count_le_unprocN pr P nid v hnidP
          have hz := hZero v hv
          constructor
          · intro h
            rcases (hmemE v).1 h with h | h
            · have := hz.1 h
              omega
            · obtain ⟨_, h1, h2⟩ := (hB v).1 h
              omega
          · intro h
            apply (hmemE v).2
            by_cases h0 : unprocN pr P v = 0
            · exact Or.inl (hz.2 h0)
            · exact Or.inr ((hB v).2 ⟨hv, by omega, by omega⟩)
        · intro v hvE
          rcases (hmemE v).1 hvE with hold | henq
          · have hvid := hIds v hold
            have hz0 : unprocN pr P v = 0 := (hZero v hvid).1 hold
            have hpredP : ∀ p ∈ mapGetD pr v [], p ∈ P :=
              (unprocN_eq_zero_iff pr P v).1 hz0
            rw [hC v hold, hLay v hold]
            congr 1
            exact foldMaxL_congr layer s.1 _ (fun p hp =>
              (hC p (List.mem_append_left _ (hpredP p hp))).symm)
          · obtain ⟨hvid, h1, h2⟩ := (hB v).1 henq
            have hvnotpnr : v ∉ P ++ nid :: rest := fun hc => by
              have := (hZero v hvid).1 hc
              omega
            have hc1 := hcount nid v
            have hnidpred : nid ∈ mapGetD pr v [] := by
              apply List.count_pos_iff.1
              omega
            have hle := count_le_unprocN pr P nid v hnidP
            have hu' := unprocN_append_single pr P nid v hnidP
            have hu'0 : unprocN pr (P ++ [nid]) v = 0 := by omega
            have hallP' := (unprocN_eq_zero_iff pr (P ++ [nid]) v).1 hu'0
            rw [hD v hvid hvnotpnr,
              if_neg (show ¬ List.count v (mapGetD su nid []) = 0 by omega)]
            congr 1
            refine (foldMax_extend s.1 layer P nid (mapGetD layer nid 0)
              (mapGetD pr v [])
              ((mapGetD pr v []).filter (fun p => decide (p ∈ P)))
              ?_ hnidpred hvalP hvalnid ?_ ?_ ?_).symm
            · intro p hp
              rcases List.mem_append.1 (hallP' p hp) with h | h
              · exact Or.inl h
              · exact Or.inr (by simpa using h)
            · intro p hp
              exact List.mem_of_mem_filter hp
            · intro p hp
              exact of_decide_eq_true (List.mem_filter.1 hp).2
            · intro p hp hpP
              exact List.mem_filter.2 ⟨hp, by simp [hpP]⟩
        · intro v hvid hvnot
          have hnotold : v ∉ P ++ nid :: rest :=
            fun hc => hvnot ((hmemE v).2 (Or.inl hc))
          have hnotenq : v ∉ s.2.2 :=
            fun hc => hvnot ((hmemE v).2 (Or.inr hc))
          have h1 : 1 ≤ unprocN pr P v := by
            rcases Nat.eq_zero_or_pos (unprocN pr P v) with h | h
            · exact absurd ((hZero v hvid).2 h) hnotold
            · exact h
          have hnb : ¬ (unprocN pr P v ≤ List.count v (mapGetD su nid [])) :=
            fun hc => hnotenq ((hB v).2 ⟨hvid, h1, hc⟩)
          have hc1 := hcount nid v
          have hD' := hD v hvid hnotold
          by_cases hc0 : List.count v (mapGetD su nid []) = 0
          · have hnidnp : nid ∉ mapGetD pr v [] := by
              intro hc
              have := List.count_pos_iff.2 hc
              omega
            have hfe : (mapGetD pr v []).filter
                  (fun p => decide (p ∈ P ++ [nid])) =
                (mapGetD pr v []).filter (fun p => decide (p ∈ P)) := by
              apply List.filter_congr
              intro a ha
              have hane : ¬ a = nid := fun hc => hnidnp (hc ▸ ha)
              simp [List.mem_append, hane]
            rw [hD', if_pos hc0, hfe]
            by_cases hpp : (mapGetD pr v []).filter
                (fun p => decide (p ∈ P)) = []
            · rw [if_pos hpp, if_pos hpp]
            · rw [if_neg hpp, if_neg hpp]
              congr 1
              exact foldMaxL_congr layer s.1 _ (fun p hp =>
                (hC p (List.mem_append_left _
                  (of_decide_eq_true (List.mem_filter.1 hp).2))).symm)
          · have hnidpred : nid ∈ mapGetD pr v [] := by
              apply List.count_pos_iff.1
              omega
            have hnidpp : nid ∈ (mapGetD pr v []).filter
                (fun p => decide (p ∈ P ++ [nid])) :=
              List.mem_filter.2 ⟨hnidpred, by simp⟩
            have hne : (mapGetD pr v []).filter
                (fun p => decide (p ∈ P ++ [nid])) ≠ [] :=
              List.ne_nil_of_mem hnidpp
            rw [hD', if_neg hc0, if_neg hne]
            congr 1
            refine (foldMax_extend s.1 layer P nid (mapGetD layer nid 0)
              ((mapGetD pr v []).filter (fun p => decide (p ∈ P ++ [nid])))
              ((mapGetD pr v []).filter (fun p => decide (p ∈ P)))
              ?_ hnidpp hvalP hvalnid ?_ ?_ ?_).symm
            · intro p hp
              have hpd := of_decide_eq_true (List.mem_filter.1 hp).2
              rcases List.mem_append.1 hpd with h | h
              · exact Or.inl h
              · exact Or.inr (by simpa using h)
            · intro p hp
              obtain ⟨hpm, hpd⟩ := List.mem_filter.1 hp
              have hpP := of_decide_eq_true hpd
              exact List.mem_filter.2 ⟨hpm, by simp [List.mem_append, hpP]⟩
            · intro p hp
              exact of_decide_eq_true (List.mem_filter.1 hp).2
            · intro p hp hpP
              exact List.mem_filter.2 ⟨(List.mem_filter.1 hp).1,
                by simp [hpP]⟩
      have hm' : (rest ++ s.2.2).length + intSumNat s.2.1 < f := by
        simp only [List.length_append, List.length_cons,
          List.length_nil] at hm hmeas ⊢
        omega
      obtain ⟨Pf, hKf, hsub⟩ := ih (P ++ [nid]) (rest ++ s.2.2) s.1 s.2.1
        hm' hK'
      refine ⟨Pf, hKf, ?_⟩
      intro x hx
      exact hsub x ((hmemE x).2 (Or.inl hx))

theorem kahnInit_KInv (g : Graph) (hnd : (g.nodes.map Node.id).Nodup) :
    KInv (g.nodes.map Node.id) (predOf g) []
      (seedsOf g.nodes (inDegInit g.nodes (predOf g)))
      (mapOfList ((seedsOf g.nodes (inDegInit g.nodes (predOf g))).map
        (fun nid => (nid, 0))))
      (inDegInit g.nodes (predOf g)) := by
  have hseedsnd : (seedsOf g.nodes (inDegInit g.nodes (predOf g))).Nodup := by
    apply List.Nodup.sublist _ hnd
    exact List.Sublist.map _ (List.filter_sublist _)
  have hgetDeg : ∀ n ∈ g.nodes,
      mapGet? (inDegInit g.nodes (predOf g)) n.id =
        some ((mapGetD (predOf g) n.id []).length : Int) := by
    intro n hn
    exact mapGet?_mapOfList_nodes g.nodes
      (fun m => ((mapGetD (predOf g) m.id []).length : Int)) hnd n hn
  have hlen0 : ∀ v ∈ seedsOf g.nodes (inDegInit g.nodes (predOf g)),
      mapGetD (predOf g) v [] = [] := by
    intro v hv
    simp only [seedsOf, List.mem_map] at hv
    obtain ⟨m, hmf, hmid⟩ := hv
    obtain ⟨hmn, hq⟩ := List.mem_filter.1 hmf
    have hq' := of_decide_eq_true hq
    rw [hmid] at hq'
    have hg := hgetDeg m hmn
    rw [hmid] at hg
    unfold mapGetD at hq'
    rw [hg] at hq'
    simp at hq'
    exact hq'
  refine ⟨?_, ?_, ?_, ?_, ?_, ?_⟩
  · rw [List.nil_append]
    exact hseedsnd
  · intro x hx
    rw [List.nil_append] at hx
    simp only [seedsOf, List.mem_map] at hx
    obtain ⟨n, hn, rfl⟩ := hx
    exact List.mem_map.2 ⟨n, List.mem_of_mem_filter hn, rfl⟩
  · intro v hv
    obtain ⟨n, hn, rfl⟩ := List.mem_map.1 hv
    rw [unprocN_nil]
    exact hgetDeg n hn
  · intro v hv
    obtain ⟨n, hn, rfl⟩ := List.mem_map.1 hv
    rw [List.nil_append, unprocN_nil]
    constructor
    · intro h
      rw [hlen0 n.id h]
      rfl
    · intro h
      apply List.mem_map.2
      refine ⟨n, List.mem_filter.2 ⟨hn, ?_⟩, rfl⟩
      apply decide_eq_true
      unfold mapGetD
      rw [hgetDeg n hn]
      rw [List.length_eq_zero.1 h]
      rfl
  · intro v hv
    rw [List.nil_append] at hv
    rw [hlen0 v hv]
    exact mapGet?_mapOfList_const _ 0 hseedsnd v hv
  · intro v hv hvn
    have hfilter : (mapGetD (predOf g) v []).filter
        (fun p => decide (p ∈ ([] : List String))) = [] := by
      simp
    rw [hfilter, if_pos rfl]
    apply mapGet?_mapOfList_notmem
    intro hc
    apply hvn
    rw [List.nil_append]
    simp only [List.map_map] at hc
    simpa using hc

theorem kahn_complete (ids : List String) (pr : SMap (List String))
    (rank : String → Nat)
    (hrank : ∀ v p, p ∈ mapGetD pr v [] → rank p < rank v)
    (hpredids : ∀ v p, p ∈ mapGetD pr v [] → p ∈ ids)
    (Pf : List String) (layer : SMap Nat) (inDeg : SMap Int)
    (hK : KInv ids pr Pf [] layer inDeg) :
    ∀ v ∈ ids, v ∈ Pf := by
  obtain ⟨_, _, _, hZero, _, _⟩ := hK
  have main : ∀ k v, v ∈ ids → rank v < k → v ∈ Pf := by
    intro k
    induction k with
    | zero =>
      intro v _ hv
      exact absurd hv (Nat.not_lt_zero _)
    | succ k ih =>
      intro v hvid hvk
      have hall : ∀ p ∈ mapGetD pr v [], p ∈ Pf := by
        intro p hp
        refine ih p (hpredids v p hp) ?_
        have := hrank v p hp
        omega
      have hz : unprocN pr Pf v = 0 := (unprocN_eq_zero_iff pr Pf v).2 hall
      have hm := (hZero v hvid).2 hz
      simpa using hm
  intro v hv
  exact main (rank v + 1) v hv (Nat.lt_succ_self _)

/-- **C1.** For every acyclic input graph (acyclicity given by a rank
function increasing along every edge, all edge endpoints existing among the
node ids), the layer recorded for each node `n` is a natural number (hence
non-negative) that equals `max(layer(p) + 1)` over the predecessors `p`
of `n`, and equals `0` when `n` has no predecessors. -/
theorem layer_recurrence (g : Graph) (rank : String → Nat)
    (hnd : (g.nodes.map Node.id).Nodup)
    (hends : ∀ e ∈ g.edges, e.source ∈ g.nodes.map Node.id ∧
      e.target ∈ g.nodes.map Node.id)
    (hedges : ∀ e ∈ g.edges, rank e.source < rank e.target) :
    ∀ n ∈ g.nodes, ∃ ln : Nat,
      mapGet? (layerMapOf g) n.id = some ln ∧
      (mapGetD (predOf g) n.id [] = [] → ln = 0) ∧
      (mapGetD (predOf g) n.id [] ≠ [] →
        (∀ p ∈ mapGetD (predOf g) n.id [],
          mapGetD (layerMapOf g) p 0 + 1 ≤ ln) ∧
        ∃ p ∈ mapGetD (predOf g) n.id [],
          ln = mapGetD (layerMapOf g) p 0 + 1) := by
  have hcount : ∀ u v, List.count u (mapGetD (predOf g) v []) =
      List.count v (mapGetD (succOf g) u []) := buildAdj_count g.nodes g.edges
  have hvals := buildAdj_values g.nodes g.edges
  have hrank : ∀ v p, p ∈ mapGetD (predOf g) v [] → rank p < rank v :=
    buildAdj_rank rank g.nodes g.edges hedges
  have hinit := kahnInit_KInv g hnd
  have hfuel : (seedsOf g.nodes (inDegInit g.nodes (predOf g))).length +
      intSumNat (inDegInit g.nodes (predOf g)) <
      kahnFuel (seedsOf g.nodes (inDegInit g.nodes (predOf g)))
        (inDegInit g.nodes (predOf g)) := by
    unfold kahnFuel
    omega
  obtain ⟨Pf, hKf, hsub⟩ := kahnLoop_spec (g.nodes.map Node.id) (predOf g)
    (succOf g) hcount hvals.2
    (kahnFuel (seedsOf g.nodes (inDegInit g.nodes (predOf g)))
      (inDegInit g.nodes (predOf g)))
    [] (seedsOf g.nodes (inDegInit g.nodes (predOf g)))
    (mapOfList ((seedsOf g.nodes (inDegInit g.nodes (predOf g))).map
      (fun nid => (nid, 0))))
    (inDegInit g.nodes (predOf g)) hfuel hinit
  have hallin : ∀ v ∈ g.nodes.map Node.id, v ∈ Pf :=
    kahn_complete (g.nodes.map Node.id) (predOf g) rank hrank hvals.1 Pf _ _ hKf
  set L := (kahnLoop (succOf g)
    (kahnFuel (seedsOf g.nodes (inDegInit g.nodes (predOf g)))
      (inDegInit g.nodes (predOf g)))
    (seedsOf g.nodes (inDegInit g.nodes (predOf g)))
    (mapOfList ((seedsOf g.nodes (inDegInit g.nodes (predOf g))).map
      (fun nid => (nid, 0))))
    (inDegInit g.nodes (predOf g))).1 with hLdef
  obtain ⟨_, _, _, _, hLay, _⟩ := hKf
  have hLM : layerMapOf g = L := by
    have hkof : layerMapOf g = withFallback L g.nodes := by
      rw [hLdef]
      rfl
    rw [hkof]
    apply withFallback_eq_self
    intro n hn
    have hmem : n.id ∈ Pf := hallin n.id (List.mem_map.2 ⟨n, hn, rfl⟩)
    have hg := hLay n.id (by simpa using hmem)
    unfold mapHas
    rw [hg]
    rfl
  intro n hn
  have hmem : n.id ∈ Pf ++ [] := by
    simpa using hallin n.id (List.mem_map.2 ⟨n, hn, rfl⟩)
  have hget := hLay n.id hmem
  rw [← hLM] at hget
  refine ⟨foldMaxL (layerMapOf g) (mapGetD (predOf g) n.id []), hget, ?_, ?_⟩
  · intro hpred
    rw [hpred]
    rfl
  · intro hpred
    refine ⟨fun p hp => le_foldMaxL _ _ p hp, ?_⟩
    rcases foldMaxL_eq_zero_or (layerMapOf g) (mapGetD (predOf g) n.id [])
      with h0 | ⟨p, hp, hpe⟩
    · obtain ⟨p, hp⟩ := List.exists_mem_of_ne_nil _ hpred
      have hle := le_foldMaxL (layerMapOf g) (mapGetD (predOf g) n.id []) p hp
      omega
    · exact ⟨p, hp, hpe⟩

def gC1 : Graph :=
  ⟨[⟨"A", "op"⟩, ⟨"B", "op"⟩, ⟨"C", "op"⟩, ⟨"D", "op"⟩],
   [⟨"A", "B"⟩, ⟨"A", "C"⟩, ⟨"B", "D"⟩, ⟨"C", "D"⟩]⟩

def rankC1 : String → Nat :=
  fun s => if s = "A" then 0 else if s = "D" then 2 else 1

theorem layer_recurrence_witness :
    ∃ ln : Nat,
      mapGet? (layerMapOf gC1) "D" = some ln ∧
      (mapGetD (predOf gC1) "D" [] = [] → ln = 0) ∧
      (mapGetD (predOf gC1) "D" [] ≠ [] →
        (∀ p ∈ mapGetD (predOf gC1) "D" [],
          mapGetD (layerMapOf gC1) p 0 + 1 ≤ ln) ∧
        ∃ p ∈ mapGetD (predOf gC1) "D" [],
          ln = mapGetD (layerMapOf gC1) p 0 + 1) :=
  layer_recurrence gC1 rankC1 (by decide) (by decide) (by decide)
    ⟨"D", "op"⟩ (by decide)
